import Mathlib

/-!
# Verification of the SGNS implementation

A shallow embedding of `sgns_implementation.py` (Skip-Gram with Negative
Sampling): vocabulary / negative-sampling-table construction
(`make_ns_table`), its persistence adapters (`load_ns_table`,
`save_ns_table`), the context-pair generator (`SGNSContextGenerator`), and
the nearest-neighbour inspection query of `SGNSModel`.

Words are modelled as `List Char`; a text file is a list of lines, each a
`List Char`.  NumPy's random draws are modelled as explicit oracles passed
to the embedded functions; floating-point values are modelled as real
numbers (the probability comparisons of the generator are additionally kept
generic in a linearly ordered type so that concrete runs can be evaluated
over `ℚ`).
-/

namespace SGNS

/-- A word: Python strings are modelled as lists of characters. -/
abbrev Word := List Char

/-! ## Whitespace splitting (Python `str.split()`)

`str.split()` with no argument splits on runs of whitespace and discards
empty fields. -/

/-- Worker for `splitWs`: `acc` holds the characters of the token currently
being read, in reverse order. -/
def splitWsGo : List Char → List Char → List Word
  | [], acc => if acc = [] then [] else [acc.reverse]
  | c :: cs, acc =>
    if c.isWhitespace then
      if acc = [] then splitWsGo cs [] else acc.reverse :: splitWsGo cs []
    else
      splitWsGo cs (c :: acc)

/-- Model of Python `str.split()` (no separator argument): split on runs of
whitespace, dropping empty fields. -/
def splitWs (l : List Char) : List Word :=
  splitWsGo l []

/-! ## Integer printing and parsing

`save_ns_table` renders integers with `f'{v}'` (decimal, `-` sign for
negatives); `load_ns_table` parses fields with Python `int(...)`. -/

/-- Fuelled worker for `natToDigits`; the fuel only bounds the recursion
depth (one step per digit) and never runs out when it exceeds the number
of digits. -/
def natToDigitsGo (fuel : ℕ) (n : ℕ) : List Char :=
  match fuel with
  | 0 => []
  | fuel + 1 =>
    if n < 10 then [Char.ofNat (48 + n)]
    else natToDigitsGo fuel (n / 10) ++ [Char.ofNat (48 + n % 10)]

/-- Decimal digit characters of a natural number, most significant first
(the rendering used by Python's `str`/f-strings on a non-negative `int`). -/
def natToDigits (n : ℕ) : List Char :=
  natToDigitsGo (n + 1) n

/-- Decimal rendering of an integer, as produced by a Python f-string. -/
def intToChars (n : ℤ) : List Char :=
  if n < 0 then '-' :: natToDigits n.natAbs else natToDigits n.toNat

/-- The numeric value of a decimal digit character, `none` otherwise. -/
def digitVal? (c : Char) : Option ℕ :=
  if 48 ≤ c.toNat ∧ c.toNat ≤ 57 then some (c.toNat - 48) else none

/-- Accumulating parse of a digit string. -/
def parseDigitsGo (acc : ℕ) : List Char → Option ℕ
  | [] => some acc
  | c :: cs =>
    match digitVal? c with
    | some d => parseDigitsGo (acc * 10 + d) cs
    | none => none

/-- Parse a non-empty all-digit string as a natural number. -/
def parseDigits : List Char → Option ℕ
  | [] => none
  | c :: cs => parseDigitsGo 0 (c :: cs)

/-- Model of Python `int(s)` on a whitespace-free field: an optional sign
followed by a non-empty digit string.  (Python additionally allows
underscore separators between digits; no well-formed saved table contains
them, and no claim depends on them.) -/
def pyInt? : List Char → Option ℤ
  | [] => none
  | c :: cs =>
    if c = '-' then (parseDigits cs).map (fun n => -(n : ℤ))
    else if c = '+' then (parseDigits cs).map (fun n => (n : ℤ))
    else (parseDigits (c :: cs)).map (fun n => (n : ℤ))

/-! ## `load_ns_table` / `save_ns_table` -/

/-- One parsed line of `load_ns_table`: `t = l.split()`, then
`(t[0], int(t[1]), int(t[2]))`.  Fewer than three fields (`IndexError`) or
a non-integer second/third field (`ValueError`) abort the load; fields
beyond the third are ignored. -/
def loadLine (l : List Char) : Option (Word × ℤ × ℤ) :=
  match splitWs l with
  | t0 :: t1 :: t2 :: _ =>
    match pyInt? t1, pyInt? t2 with
    | some fr, some ns => some (t0, fr, ns)
    | _, _ => none
  | _ => none

/-- `load_ns_table`: parse the lines in order; any failing line raises,
aborting the whole load with no partial result. -/
def load_ns_table : List (List Char) → Option (List (Word × ℤ × ℤ))
  | [] => some []
  | l :: ls =>
    match loadLine l, load_ns_table ls with
    | some e, some rest => some (e :: rest)
    | _, _ => none

/-- One line written by `save_ns_table`: `print(f'{w} {fr} {ns}')`. -/
def saveLine (e : Word × ℤ × ℤ) : List Char :=
  e.1 ++ ' ' :: intToChars e.2.1 ++ ' ' :: intToChars e.2.2

/-- `save_ns_table`: one line per table entry, in order. -/
def save_ns_table (table : List (Word × ℤ × ℤ)) : List (List Char) :=
  table.map saveLine

/-! ## `make_ns_table`: vocabulary construction -/

/-- All tokens of the corpus in order: each line is optionally lowercased
(`line.lower()`) and then split on whitespace; the per-line
`freqs.update(line.split())` calls accumulate counts over exactly this
token stream. -/
def tokenizeCorpus (lowercase : Bool) (corpus : List (List Char)) : List Word :=
  (corpus.map (fun line => splitWs (if lowercase then line.map Char.toLower else line))).flatten

/-- The `Counter` contents as a list of `(word, frequency)` items, one per
distinct token.  (`Counter.items()` enumerates in insertion order; since the
words are pairwise distinct and the list is immediately sorted by the strict
key order below, the enumeration order is irrelevant.) -/
def countFreqs (tokens : List Word) : List (Word × ℕ) :=
  tokens.dedup.map fun w => (w, tokens.count w)

/-- The order produced by `sorted(freqs.items(), key=lambda p: (p[1], p[0]),
reverse=True)`: descending by frequency, ties broken by *descending*
lexicographic word order (the key tuple `(frequency, word)` is compared
lexicographically and the whole comparison is reversed). -/
def keyGe (a b : Word × ℕ) : Prop :=
  b.2 < a.2 ∨ (b.2 = a.2 ∧ b.1 ≤ a.1)

instance : DecidableRel keyGe := fun a b => by
  unfold keyGe; infer_instance

/-- The sorted frequency list `freqs_sorted` (before the sentinel is
prepended). -/
def sortFreqs (fs : List (Word × ℕ)) : List (Word × ℕ) :=
  List.insertionSort keyGe fs

/-- `sum_freq_pruned`: the summed frequency of the words beyond the size
cap when some word is excluded (`len(freqs_sorted) > voc_size - 1`),
otherwise the literal `1`. -/
def sentinelFreq (vocSize : ℕ) (fs : List (Word × ℕ)) : ℕ :=
  if vocSize - 1 < fs.length then ((fs.drop (vocSize - 1)).map Prod.snd).sum else 1

/-- The frequency part of `make_ns_table`: the unknown-word sentinel
followed by the top `voc_size - 1` words of the sorted frequency list.
(The embedding covers the configurations `voc_size ≥ 1`; Python's negative
slice indexing would behave differently at `voc_size = 0`.) -/
def makeFreqTable (lowercase : Bool) (vocSize : ℕ) (unk : Word)
    (corpus : List (List Char)) : List (Word × ℕ) :=
  let fs := sortFreqs (countFreqs (tokenizeCorpus lowercase corpus))
  (unk, sentinelFreq vocSize fs) :: fs.take (vocSize - 1)

/-! ## `make_ns_table`: negative-sampling slot counts -/

/-- Python 3 `round` on a float, yielding an int: round half to even
(banker's rounding); the surrounding `int(...)` in the source is the
identity on the result. -/
noncomputable def pyRound (x : ℝ) : ℤ :=
  if x - ⌊x⌋ = 1 / 2 then (if 2 ∣ ⌊x⌋ then ⌊x⌋ else ⌊x⌋ + 1) else round x

/-- The `ns_table` dictionary of `make_ns_table`: one assignment
`ns_table[w] = freq ** ns_exp` per entry of `freqs_sorted`, in order, so a
repeated word keeps its *last* assignment.  (The lookup default `0` is
never reached by the code, which only looks up words of `freqs_sorted`.) -/
noncomputable def nsDict (nsExp : ℝ) (fs : List (Word × ℕ)) : Word → ℝ :=
  fs.foldl (fun m p => fun w => if w = p.1 then (p.2 : ℝ) ^ nsExp else m w) (fun _ => 0)

/-- The slot-count computation of `make_ns_table`: `sum_freq` accumulates
every entry's own `freq ** ns_exp`, `scaler = ns_table_size / sum_freq`,
and each entry of `freqs_sorted` becomes
`(w, freq, int(round(ns_table[w] * scaler)))` — via the *dictionary
lookup* `ns_table[w]`, which on a repeated word yields the last
duplicate's `freq ** ns_exp` rather than the entry's own. -/
noncomputable def nsSlots (nsTableSize : ℕ) (nsExp : ℝ)
    (fs : List (Word × ℕ)) : List (Word × ℕ × ℤ) :=
  let sumFreq : ℝ := (fs.map fun p => (p.2 : ℝ) ^ nsExp).sum
  let scaler : ℝ := (nsTableSize : ℝ) / sumFreq
  fs.map fun p => (p.1, p.2, pyRound (nsDict nsExp fs p.1 * scaler))

/-- `make_ns_table`: build the sorted, capped frequency table and attach
the quantized negative-sampling slot counts. -/
noncomputable def make_ns_table (lowercase : Bool) (vocSize : ℕ) (unk : Word)
    (nsTableSize : ℕ) (nsExp : ℝ) (corpus : List (List Char)) :
    List (Word × ℕ × ℤ) :=
  nsSlots nsTableSize nsExp (makeFreqTable lowercase vocSize unk corpus)

/-! ## `SGNSContextGenerator`

The generator's random draws are passed in as explicit oracles:
`wdraw k` is the `k`-th array produced by
`np.random.randint(1, ctx_width + 1, size=batch_size)` and `psO li` gives
the uniform `[0,1)` draws of `np.random.random(size=len(tokens))` for line
`li`.  The pruning probabilities and draws live in an arbitrary linearly
ordered type, standing for the IEEE doubles of the source; only order
comparisons are performed on them. -/

/-- Total frequency `sum(f for _, f, _ in ns_table)` as a real. -/
def totalFreq (table : List (Word × ℕ × ℤ)) : ℕ :=
  (table.map fun e => e.2.1).sum

/-- The pruning-probability dictionary built in
`SGNSContextGenerator.__init__`:
`prune_probs[w] = 1 - sqrt(prune_threshold * total_freq / f)`, one
assignment per table entry in order (a repeated word keeps its last
assignment), read back with `.get(w, 0)` — absent words give `0`. -/
noncomputable def pruneProbFun (threshold : ℝ) (table : List (Word × ℕ × ℤ)) :
    Word → ℝ :=
  table.foldl
    (fun m e => fun w =>
      if w = e.1 then 1 - Real.sqrt (threshold * (totalFreq table : ℝ) / (e.2.1 : ℝ))
      else m w)
    (fun _ => 0)

/-- `SGNSContextGenerator.prune`: keep token `w` with draw `p` iff
`p >= prune_probs.get(w, 0)`; `zip` pairs each token with its draw. -/
def prune {α : Type} [LinearOrder α] (probs : Word → α) (tokens : List Word)
    (ps : List α) : List Word :=
  ((tokens.zip ps).filter fun q => probs q.1 ≤ q.2).map Prod.fst

/-- The `voc` dictionary `{ w:i for i, (w, _, _) in enumerate(ns_table) }`
read back with `.get(t, 0)`: the last index of `w` in the table, or the
sentinel index `0` for out-of-vocabulary words. -/
def vocGet (table : List (Word × ℕ × ℤ)) (w : Word) : ℕ :=
  (table.enum.foldl (fun m q => if q.2.1 = w then some q.1 else m) none).getD 0

/-- One line's `encoded` list: lowercase, split, prune with the line's
draws, then map through `voc.get(t, 0)`. -/
def encodeLine {α : Type} [LinearOrder α] (lowercase : Bool)
    (table : List (Word × ℕ × ℤ)) (probs : Word → α) (ps : ℕ → α)
    (line : List Char) : List ℕ :=
  let ln := if lowercase then line.map Char.toLower else line
  let tokens := splitWs ln
  (prune probs tokens ((List.range tokens.length).map ps)).map (vocGet table)

/-- The mutable state of one `batches()` invocation.  `failed = true`
records that the NumPy width array was indexed out of bounds (an
`IndexError` aborting the generator); batches already yielded are kept. -/
structure GenState where
  widths : List ℕ
  widthIx : ℕ
  drawCount : ℕ
  outT : List ℕ
  outC : List ℕ
  batches : List (List ℕ × List ℕ)
  wordCount : ℕ
  failed : Bool

/-- Append one `(target, context)` pair to the accumulators; if the batch
is full, yield it and reset the accumulators and the width array. -/
def emitPair (batchSize : ℕ) (wdraw : ℕ → List ℕ) (t c : ℕ) (s : GenState) :
    GenState :=
  let outT := s.outT ++ [t]
  let outC := s.outC ++ [c]
  if outT.length = batchSize then
    { s with
      widths := wdraw s.drawCount, widthIx := 0, drawCount := s.drawCount + 1,
      outT := [], outC := [], batches := s.batches ++ [(outT, outC)] }
  else
    { s with outT := outT, outC := outC }

/-- Process target position `i` of an encoded line: read the next width
`w = widths[width_ix]` (out of bounds sets `failed`), then emit a pair for
every `j` in `range(max(0, i - w), min(i + w + 1, len(encoded)))` with
`j != i`. -/
def doPosition (batchSize : ℕ) (wdraw : ℕ → List ℕ) (encoded : List ℕ)
    (i : ℕ) (s : GenState) : GenState :=
  if s.failed then s
  else
    match s.widths.get? s.widthIx with
    | none => { s with failed := true }
    | some w =>
      let s1 := { s with widthIx := s.widthIx + 1 }
      let strt := i - w
      let stp := min (i + w + 1) encoded.length
      (List.range' strt (stp - strt)).foldl
        (fun st j =>
          if j ≠ i then emitPair batchSize wdraw (encoded.getD i 0) (encoded.getD j 0) st
          else st)
        s1

/-- Process one corpus line: count its tokens, encode it, and run
`doPosition` over every position of the encoded line. -/
def doLine {α : Type} [LinearOrder α] (lowercase : Bool) (batchSize : ℕ)
    (table : List (Word × ℕ × ℤ)) (probs : Word → α) (wdraw : ℕ → List ℕ)
    (ps : ℕ → α) (line : List Char) (s : GenState) : GenState :=
  if s.failed then s
  else
    let ln := if lowercase then line.map Char.toLower else line
    let s1 := { s with wordCount := s.wordCount + (splitWs ln).length }
    let encoded := encodeLine lowercase table probs ps line
    (List.range encoded.length).foldl
      (fun st i => doPosition batchSize wdraw encoded i st) s1

/-- `SGNSContextGenerator.batches()`: one full pass over the corpus.  The
initial width array is drawn before the scan; after the scan, a non-empty
partial batch is yielded once (unless the pass aborted with an
`IndexError`). -/
def batches {α : Type} [LinearOrder α] (lowercase : Bool) (batchSize : ℕ)
    (table : List (Word × ℕ × ℤ)) (probs : Word → α) (wdraw : ℕ → List ℕ)
    (psO : ℕ → ℕ → α) (corpus : List (List Char)) : GenState :=
  let s0 : GenState :=
    { widths := wdraw 0, widthIx := 0, drawCount := 1, outT := [], outC := [],
      batches := [], wordCount := 0, failed := false }
  let s := (List.range corpus.length).foldl
    (fun st li => doLine lowercase batchSize table probs wdraw (psO li) (corpus.getD li []) st)
    s0
  if ¬ s.failed ∧ s.outT ≠ [] then
    { s with batches := s.batches ++ [(s.outT, s.outC)], outT := [], outC := [] }
  else s

/-- The generator as constructed by the source: pruning probabilities come
from `pruneProbFun` over the real numbers. -/
noncomputable def SGNSContextGenerator.run (lowercase : Bool) (batchSize : ℕ)
    (ctxThreshold : ℝ) (table : List (Word × ℕ × ℤ)) (wdraw : ℕ → List ℕ)
    (psO : ℕ → ℕ → ℝ) (corpus : List (List Char)) : GenState :=
  batches lowercase batchSize table (pruneProbFun ctxThreshold table) wdraw psO corpus

/-! ## `SGNSModel.nearest_neighbors`

The target embedding table `self.w.weight` is a `voc_size × emb_dim`
matrix, modelled as a list of row vectors.  `torch.topk(..., sorted=True)`
returns the largest entries in descending order; ties are modelled as
resolved toward the smaller index, the deterministic behaviour of the
dense implementation. -/

/-- Dot product of two row vectors (`bmm` on a single pair). -/
def dotL (x y : List ℝ) : ℝ :=
  ((x.zip y).map fun p => p.1 * p.2).sum

/-- Euclidean norm of a row vector. -/
noncomputable def norm2 (x : List ℝ) : ℝ :=
  Real.sqrt (dotL x x)

/-- The `eps` of `torch.nn.CosineSimilarity` (default `1e-8`). -/
noncomputable def torchCosEps : ℝ := 1 / 100000000

/-- `torch.nn.CosineSimilarity`: `x·y / max(‖x‖₂‖y‖₂, eps)`. -/
noncomputable def cosSim (x y : List ℝ) : ℝ :=
  dotL x y / max (norm2 x * norm2 y) torchCosEps

/-- Dictionary lookup `voc[w]` for `voc = { w:i for i, w in enumerate(ws) }`:
the last index of `w`, or `none` (a `KeyError`) when absent. -/
def dictIndex (ws : List Word) (w : Word) : Option ℕ :=
  ws.enum.foldl (fun m q => if q.2 = w then some q.1 else m) none

/-- The ranking order realised by `torch.topk` on the score row `s`:
`i` precedes `j` when its score is larger, with ties resolved toward the
smaller index. -/
def rankRel (s : ℕ → ℝ) (i j : ℕ) : Prop :=
  s j < s i ∨ (s i = s j ∧ i ≤ j)

noncomputable instance (s : ℕ → ℝ) : DecidableRel (rankRel s) := fun i j => by
  unfold rankRel; infer_instance

/-- `nearest_neighbors` for a single query word: look up the query index
(`KeyError` if absent), compute the cosine-similarity row against every
embedding row, rank all indices, keep the top `n_neighbors + 1`, drop the
first (`values[:, 1:]`, `indices[:, 1:]`), and map back through `ivoc`.
A falsy `n_neighbors` (zero) makes the source read the attribute
`self.n_testwords_neighbors`, which `SGNSModel` never defines — an
`AttributeError`, modelled as `none`. -/
noncomputable def nearestNeighborsOne (vocab : List Word) (W : List (List ℝ))
    (k : ℕ) (w : Word) : Option (List (Word × ℝ)) :=
  match dictIndex vocab w with
  | none => none
  | some q =>
    if k = 0 then none
    else
      let scores : ℕ → ℝ := fun i => cosSim (W.getD q []) (W.getD i [])
      let ranked := List.insertionSort (rankRel scores) (List.range W.length)
      let top := (ranked.take (k + 1)).drop 1
      some (top.map fun i => (vocab.getD i [], scores i))

/-- `SGNSModel.nearest_neighbors` on a list of query words. -/
noncomputable def nearest_neighbors (vocab : List Word) (W : List (List ℝ))
    (words : List Word) (k : ℕ) : Option (List (List (Word × ℝ))) :=
  words.mapM (nearestNeighborsOne vocab W k)

/-! ## Spec-side checkers

These definitions follow the words of the specification (not the source)
and exist to be compared with the behaviour of the embedded code. -/

/-- Spec-side checker: no yielded batch contains a pair whose target
vocabulary index equals its context vocabulary index. -/
def selfPairFree (bs : List (List ℕ × List ℕ)) : Bool :=
  bs.all fun b => (b.1.zip b.2).all fun p => p.1 != p.2

/-- Spec-side order of claim C5: adjacent entries are in descending
frequency order with ties broken by *ascending* lexicographic word
order. -/
def descFreqAscWord : List (Word × ℕ) → Bool
  | a :: b :: rest =>
    (decide (b.2 < a.2) || (decide (a.2 = b.2) && decide (a.1 < b.1)))
      && descFreqAscWord (b :: rest)
  | _ => true

/-! ## Counterexamples and failing runs -/

/-- Claim C1, counterexample: when the same word occurs twice inside a
window, target and context receive the same vocabulary index.  On the
one-line corpus `a a` (no pruning, all widths 1, batch size 8) the
generator yields the batch `([1, 1], [1, 1])`, whose pairs both have
target index equal to context index; only the *positions* differ. -/
theorem batches_self_pair_counterexample :
    (batches (α := ℚ) false 8 [("u".data, 1, 0), ("a".data, 1, 0)]
        (fun _ => 0) (fun _ => List.replicate 8 1) (fun _ _ => 0)
        ["a a".data]).batches = [([1, 1], [1, 1])]
    ∧ selfPairFree [([1, 1], [1, 1])] = false := by
  constructor
  · decide
  · decide

/-- Claim C2: the precomputed width array can be exhausted.  With
`batch_size = 1` and a corpus of two single-token lines, the first target
position consumes `widths[0]` while emitting no pair, so the second
position reads `widths[1]` of a size-1 array — an `IndexError` aborting
the pass (modelled as `failed = true`). -/
theorem batches_width_read_out_of_bounds :
    (batches (α := ℚ) false 1 [("u".data, 1, 0), ("a".data, 1, 0)]
        (fun _ => 0) (fun _ => [1]) (fun _ _ => 0)
        ["a".data, "a".data]).failed = true := by
  decide

/-- Claim C3, counterexample: when no word is excluded by the size cap the
sentinel frequency is the literal `1`, not the sum `0` of the (empty) set
of excluded words' frequencies.  Corpus `a`, `voc_size = 10`. -/
theorem sentinel_freq_counterexample :
    (makeFreqTable false 10 ("<u>".data) ["a".data]).headD ([], 0) = ("<u>".data, 1)
    ∧ (((sortFreqs (countFreqs (tokenizeCorpus false ["a".data]))).drop (10 - 1)).map
        Prod.snd).sum = 0 := by
  constructor
  · decide
  · decide

/-- Claim C5, counterexample: `reverse=True` on the key `(frequency, word)`
breaks frequency ties by *descending* word order.  On the corpus `a B`
(lowercased) the entries after the sentinel are `[(b, 1), (a, 1)]`, which
violates the ascending tie order of the claim. -/
theorem tie_order_counterexample :
    (makeFreqTable true 10 ("<u>".data) ["a B".data]).drop 1
      = [("b".data, 1), ("a".data, 1)]
    ∧ descFreqAscWord [("b".data, 1), ("a".data, 1)] = false := by
  constructor
  · decide
  · decide

/-- Claim C8, counterexample: the empty word contains no whitespace, yet
its saved line ` 0 0` has only two fields and the reload fails instead of
returning the original table. -/
theorem roundtrip_empty_word_counterexample :
    load_ns_table (save_ns_table [([], 0, 0)]) = none := by
  decide

/-- Claim C9, counterexample: a line with four fields — not exactly three —
is accepted, with the extra field silently ignored. -/
theorem load_extra_fields_counterexample :
    (splitWs ("a 1 2 3".data)).length = 4
    ∧ loadLine ("a 1 2 3".data) = some ("a".data, 1, 2) := by
  constructor
  · decide
  · decide

/-! ## Round-trip lemmas for the persistence adapters -/

theorem digitVal_ofNat (d : ℕ) (hd : d < 10) :
    digitVal? (Char.ofNat (48 + d)) = some d := by
  interval_cases d <;> decide

theorem toNat_digit_char (d : ℕ) (hd : d < 10) :
    48 ≤ (Char.ofNat (48 + d)).toNat ∧ (Char.ofNat (48 + d)).toNat ≤ 57 := by
  interval_cases d <;> decide

theorem not_ws_of_digit_range (c : Char) (h1 : 48 ≤ c.toNat) (h2 : c.toNat ≤ 57) :
    c.isWhitespace = false := by
  simp only [Char.isWhitespace, Bool.or_eq_false_iff, decide_eq_false_iff_not]
  refine ⟨⟨⟨?_, ?_⟩, ?_⟩, ?_⟩ <;> intro he <;> subst he <;>
    exact absurd h1 (by decide)

theorem parseDigitsGo_append (xs ys : List Char) (acc : ℕ) :
    parseDigitsGo acc (xs ++ ys) =
      match parseDigitsGo acc xs with
      | some m => parseDigitsGo m ys
      | none => none := by
  induction xs generalizing acc with
  | nil => simp [parseDigitsGo]
  | cons c cs ih =>
    cases h : digitVal? c with
    | some d =>
      simp only [List.cons_append, parseDigitsGo, h]
      exact ih _
    | none => simp only [List.cons_append, parseDigitsGo, h]

theorem natToDigitsGo_digits (fuel : ℕ) :
    ∀ n c, c ∈ natToDigitsGo fuel n → 48 ≤ c.toNat ∧ c.toNat ≤ 57 := by
  induction fuel with
  | zero => intro n c hc; simp [natToDigitsGo] at hc
  | succ fuel ih =>
    intro n c hc
    by_cases h : n < 10
    · simp only [natToDigitsGo, if_pos h, List.mem_singleton] at hc
      subst hc; exact toNat_digit_char n h
    · simp only [natToDigitsGo, if_neg h, List.mem_append, List.mem_singleton] at hc
      rcases hc with hc | hc
      · exact ih _ _ hc
      · subst hc; exact toNat_digit_char (n % 10) (Nat.mod_lt _ (by omega))

theorem natToDigitsGo_ne_nil (fuel n : ℕ) : natToDigitsGo (fuel + 1) n ≠ [] := by
  by_cases h : n < 10 <;> simp [natToDigitsGo, h]

theorem parseDigitsGo_natToDigitsGo (fuel : ℕ) :
    ∀ n acc, n < fuel →
      parseDigitsGo acc (natToDigitsGo fuel n) =
        some (acc * 10 ^ (natToDigitsGo fuel n).length + n) := by
  induction fuel with
  | zero => intro n _ hn; exact absurd hn (Nat.not_lt_zero n)
  | succ fuel ih =>
    intro n acc hn
    by_cases h : n < 10
    · simp [natToDigitsGo, if_pos h, parseDigitsGo, digitVal_ofNat n h]
    · have hrec : n / 10 < fuel := by
        have := Nat.div_lt_self (show 0 < n by omega) (show 1 < 10 by omega)
        omega
      have hdm := Nat.div_add_mod n 10
      simp only [natToDigitsGo, if_neg h]
      rw [parseDigitsGo_append, ih _ acc hrec]
      simp only [parseDigitsGo, digitVal_ofNat (n % 10) (Nat.mod_lt _ (by omega)),
        List.length_append, List.length_singleton]
      congr 1
      rw [pow_succ]
      ring_nf
      omega

theorem parseDigits_natToDigits (n : ℕ) : parseDigits (natToDigits n) = some n := by
  have h := parseDigitsGo_natToDigitsGo (n + 1) n 0 (by omega)
  have hne := natToDigitsGo_ne_nil n n
  unfold natToDigits
  cases hl : natToDigitsGo (n + 1) n with
  | nil => exact absurd hl hne
  | cons c cs =>
    rw [hl] at h
    simpa [parseDigits] using h

theorem natToDigits_digits (n : ℕ) :
    ∀ c ∈ natToDigits n, 48 ≤ c.toNat ∧ c.toNat ≤ 57 := by
  intro c hc
  exact natToDigitsGo_digits (n + 1) n c hc

theorem natToDigits_ne_nil (n : ℕ) : natToDigits n ≠ [] :=
  natToDigitsGo_ne_nil n n

theorem pyInt_natToDigits (m : ℕ) :
    pyInt? (natToDigits m) = some (m : ℤ) := by
  cases hl : natToDigits m with
  | nil => exact absurd hl (natToDigits_ne_nil m)
  | cons c cs =>
    have hc : 48 ≤ c.toNat ∧ c.toNat ≤ 57 :=
      natToDigits_digits m c (hl ▸ List.mem_cons_self c cs)
    have hcm : ¬ (c = '-') := fun he => by
      subst he; revert hc; decide
    have hcp : ¬ (c = '+') := fun he => by
      subst he; revert hc; decide
    rw [pyInt?, if_neg hcm, if_neg hcp, ← hl, parseDigits_natToDigits]
    rfl

theorem pyInt_intToChars (n : ℤ) : pyInt? (intToChars n) = some n := by
  unfold intToChars
  by_cases hn : n < 0
  · rw [if_pos hn, pyInt?, if_pos rfl, parseDigits_natToDigits]
    simp [abs_of_neg hn]
  · rw [if_neg hn, pyInt_natToDigits]
    congr 1
    omega

theorem intToChars_ne_nil (n : ℤ) : intToChars n ≠ [] := by
  unfold intToChars
  by_cases hn : n < 0
  · simp [if_pos hn]
  · simp [if_neg hn, natToDigits_ne_nil]

theorem intToChars_not_ws (n : ℤ) :
    ∀ c ∈ intToChars n, c.isWhitespace = false := by
  intro c hc
  unfold intToChars at hc
  by_cases hn : n < 0
  · rw [if_pos hn] at hc
    rcases List.mem_cons.mp hc with hc | hc
    · subst hc; decide
    · obtain ⟨h1, h2⟩ := natToDigits_digits _ c hc
      exact not_ws_of_digit_range c h1 h2
  · rw [if_neg hn] at hc
    obtain ⟨h1, h2⟩ := natToDigits_digits _ c hc
    exact not_ws_of_digit_range c h1 h2

theorem splitWsGo_token :
    ∀ (w : List Char), (∀ c ∈ w, c.isWhitespace = false) →
      ∀ (acc rest : List Char), (acc ≠ [] ∨ w ≠ []) →
        splitWsGo (w ++ ' ' :: rest) acc = (acc.reverse ++ w) :: splitWsGo rest [] := by
  intro w
  induction w with
  | nil =>
    intro _ acc rest hne
    have hacc : acc ≠ [] := by
      rcases hne with h | h
      · exact h
      · exact absurd rfl h
    simp [splitWsGo, hacc]
  | cons c cs ih =>
    intro hw acc rest _
    have hc : c.isWhitespace = false := hw c (List.mem_cons_self _ _)
    have hcs : ∀ x ∈ cs, x.isWhitespace = false :=
      fun x hx => hw x (List.mem_cons_of_mem _ hx)
    simp only [List.cons_append, splitWsGo, hc, Bool.false_eq_true, if_false]
    rw [List.append_eq, ih hcs (c :: acc) rest (Or.inl (by simp))]
    simp

theorem splitWsGo_final :
    ∀ (w : List Char), (∀ c ∈ w, c.isWhitespace = false) →
      ∀ (acc : List Char),
        splitWsGo w acc = if acc.reverse ++ w = [] then [] else [acc.reverse ++ w] := by
  intro w
  induction w with
  | nil =>
    intro _ acc
    simp only [splitWsGo, List.append_nil]
    by_cases hacc : acc = []
    · subst hacc; simp
    · simp [hacc]
  | cons c cs ih =>
    intro hw acc
    have hc : c.isWhitespace = false := hw c (List.mem_cons_self _ _)
    have hcs : ∀ x ∈ cs, x.isWhitespace = false :=
      fun x hx => hw x (List.mem_cons_of_mem _ hx)
    simp only [splitWsGo, hc, Bool.false_eq_true, if_false]
    rw [ih hcs (c :: acc)]
    simp

theorem splitWs_three_fields (w d1 d2 : List Char)
    (hw : ∀ c ∈ w, c.isWhitespace = false) (hwne : w ≠ [])
    (h1 : ∀ c ∈ d1, c.isWhitespace = false) (h1ne : d1 ≠ [])
    (h2 : ∀ c ∈ d2, c.isWhitespace = false) (h2ne : d2 ≠ []) :
    splitWs (w ++ ' ' :: d1 ++ ' ' :: d2) = [w, d1, d2] := by
  unfold splitWs
  have hshape : w ++ ' ' :: d1 ++ ' ' :: d2 = w ++ ' ' :: (d1 ++ ' ' :: d2) := by
    simp
  rw [hshape, splitWsGo_token w hw [] _ (Or.inr hwne),
    splitWsGo_token d1 h1 [] _ (Or.inr h1ne),
    splitWsGo_final d2 h2 []]
  simp [h2ne]

theorem loadLine_saveLine (e : Word × ℤ × ℤ) (hne : e.1 ≠ [])
    (hws : ∀ c ∈ e.1, c.isWhitespace = false) :
    loadLine (saveLine e) = some e := by
  unfold loadLine saveLine
  rw [splitWs_three_fields e.1 (intToChars e.2.1) (intToChars e.2.2) hws hne
    (intToChars_not_ws e.2.1) (intToChars_ne_nil e.2.1)
    (intToChars_not_ws e.2.2) (intToChars_ne_nil e.2.2)]
  simp [pyInt_intToChars]

/-- Claim C8 (amended): for tables whose words are non-empty and contain no
whitespace (and whose frequency and slot fields are integers, in particular
any non-negative ones), saving then loading returns exactly the original
ordered table, and re-saving the loaded table reproduces the same lines. -/
theorem save_load_roundtrip (tbl : List (Word × ℤ × ℤ))
    (hv : ∀ e ∈ tbl, e.1 ≠ [] ∧ ∀ c ∈ e.1, c.isWhitespace = false) :
    load_ns_table (save_ns_table tbl) = some tbl
    ∧ (load_ns_table (save_ns_table tbl)).map save_ns_table
        = some (save_ns_table tbl) := by
  have hmain : load_ns_table (save_ns_table tbl) = some tbl := by
    induction tbl with
    | nil => rfl
    | cons e rest ih =>
      have he := hv e (List.mem_cons_self _ _)
      have hrest := ih fun x hx => hv x (List.mem_cons_of_mem _ hx)
      simp only [save_ns_table, List.map_cons, load_ns_table] at hrest ⊢
      rw [loadLine_saveLine e he.1 he.2, hrest]
  exact ⟨hmain, by rw [hmain]; rfl⟩

/-- Closed witness for the amended claim C8 at a concrete two-entry
table. -/
theorem save_load_roundtrip_witness :
    (∀ e ∈ [("ab".data, (3 : ℤ), (-2 : ℤ)), ("c".data, 0, 7)],
        e.1 ≠ [] ∧ ∀ c ∈ e.1, c.isWhitespace = false)
    ∧ load_ns_table (save_ns_table [("ab".data, (3 : ℤ), (-2 : ℤ)), ("c".data, 0, 7)])
        = some [("ab".data, 3, -2), ("c".data, 0, 7)] :=
  ⟨by decide,
   (save_load_roundtrip [("ab".data, 3, -2), ("c".data, 0, 7)] (by decide)).1⟩

/-- Claim C9 (amended): a line fails to parse exactly when it has *fewer
than* three fields or its second or third field is not an integer; extra
fields beyond the third are silently ignored.  A load returns `none` —
never a partial table — exactly when some line fails. -/
theorem load_malformed_rejected :
    (∀ l : List Char,
        loadLine l = none ↔
          ((splitWs l).length < 3
            ∨ pyInt? ((splitWs l).getD 1 []) = none
            ∨ pyInt? ((splitWs l).getD 2 []) = none))
    ∧ (∀ lines : List (List Char),
        load_ns_table lines = none ↔ ∃ l ∈ lines, loadLine l = none) := by
  constructor
  · intro l
    rcases hsp : splitWs l with _ | ⟨t0, _ | ⟨t1, _ | ⟨t2, rest⟩⟩⟩
    · simp [loadLine, hsp]
    · simp [loadLine, hsp]
    · simp [loadLine, hsp]
    · cases hp1 : pyInt? t1 <;> cases hp2 : pyInt? t2 <;>
        simp [loadLine, hsp, hp1, hp2]
  · intro lines
    induction lines with
    | nil => simp [load_ns_table]
    | cons l ls ih =>
      cases hl : loadLine l with
      | none =>
        simp only [load_ns_table, hl, List.mem_cons]
        constructor
        · intro _; exact ⟨l, Or.inl rfl, hl⟩
        · intro _; trivial
      | some e =>
        cases hls : load_ns_table ls with
        | none =>
          obtain ⟨x, hx, hn⟩ := ih.mp hls
          simp only [load_ns_table, hl, hls, List.mem_cons]
          constructor
          · intro _; exact ⟨x, Or.inr hx, hn⟩
          · intro _; trivial
        | some rest =>
          simp only [load_ns_table, hl, hls, List.mem_cons]
          constructor
          · intro h; exact absurd h (by simp)
          · rintro ⟨x, hx | hx, hn⟩
            · subst hx; rw [hl] at hn; exact absurd hn (by simp)
            · exact absurd (ih.mpr ⟨x, hx, hn⟩) (by simp [hls])

/-! ## Vocabulary construction: shape and order -/

instance : IsTrans (Word × ℕ) keyGe where
  trans a b c hab hbc := by
    rcases hab with h1 | ⟨h1, h2⟩ <;> rcases hbc with h3 | ⟨h3, h4⟩
    · exact Or.inl (by omega)
    · exact Or.inl (by omega)
    · exact Or.inl (by omega)
    · exact Or.inr ⟨by omega, le_trans h4 h2⟩

instance : IsTotal (Word × ℕ) keyGe where
  total a b := by
    rcases lt_trichotomy a.2 b.2 with h | h | h
    · exact Or.inr (Or.inl h)
    · rcases le_total a.1 b.1 with hw | hw
      · exact Or.inr (Or.inr ⟨h, hw⟩)
      · exact Or.inl (Or.inr ⟨h.symm, hw⟩)
    · exact Or.inl (Or.inl h)

/-- Claim C3 (amended): for every corpus and `vocab_size ≥ 1` the table has
exactly `min(distinct_words + 1, vocab_size)` entries, and the sentinel
placed first holds the sum of the excluded words' raw frequencies whenever
at least one word is excluded (`distinct_words ≥ vocab_size`); when nothing
is excluded it holds the literal `1`, not the empty sum `0`. -/
theorem make_freq_table_shape (lowercase : Bool) (vocSize : ℕ) (unk : Word)
    (corpus : List (List Char)) (hv : 1 ≤ vocSize) :
    (makeFreqTable lowercase vocSize unk corpus).length
      = min ((countFreqs (tokenizeCorpus lowercase corpus)).length + 1) vocSize
    ∧ (vocSize ≤ (countFreqs (tokenizeCorpus lowercase corpus)).length →
        (makeFreqTable lowercase vocSize unk corpus).headD ([], 0)
          = (unk, (((sortFreqs (countFreqs (tokenizeCorpus lowercase corpus))).drop
              (vocSize - 1)).map Prod.snd).sum))
    ∧ ((countFreqs (tokenizeCorpus lowercase corpus)).length < vocSize →
        (makeFreqTable lowercase vocSize unk corpus).headD ([], 0) = (unk, 1)) := by
  have hlen : (sortFreqs (countFreqs (tokenizeCorpus lowercase corpus))).length
      = (countFreqs (tokenizeCorpus lowercase corpus)).length :=
    List.length_insertionSort keyGe _
  refine ⟨?_, ?_, ?_⟩
  · simp only [makeFreqTable, List.length_cons, List.length_take, hlen]
    omega
  · intro hc
    simp only [makeFreqTable, List.headD_cons, sentinelFreq, hlen]
    rw [if_pos (by omega)]
  · intro hc
    simp only [makeFreqTable, List.headD_cons, sentinelFreq, hlen]
    rw [if_neg (by omega)]

/-- Closed witness for the amended claim C3: corpus `a b c b c c` with
`vocab_size = 2` keeps only `c` and the sentinel aggregates `2 + 1 = 3`. -/
theorem make_freq_table_shape_witness :
    (1 : ℕ) ≤ 2
    ∧ ((makeFreqTable false 2 ("<u>".data) ["a b c b c c".data]).length
        = min ((countFreqs (tokenizeCorpus false ["a b c b c c".data])).length + 1) 2
      ∧ (2 ≤ (countFreqs (tokenizeCorpus false ["a b c b c c".data])).length →
          (makeFreqTable false 2 ("<u>".data) ["a b c b c c".data]).headD ([], 0)
            = ("<u>".data, (((sortFreqs (countFreqs (tokenizeCorpus false
                ["a b c b c c".data]))).drop (2 - 1)).map Prod.snd).sum))
      ∧ ((countFreqs (tokenizeCorpus false ["a b c b c c".data])).length < 2 →
          (makeFreqTable false 2 ("<u>".data) ["a b c b c c".data]).headD ([], 0)
            = ("<u>".data, 1))) :=
  ⟨by decide, make_freq_table_shape false 2 ("<u>".data) ["a b c b c c".data] (by decide)⟩

/-- Claim C5 (amended): the entries after the sentinel are exactly the top
`vocab_size - 1` of the frequency list sorted by the descending
`(frequency, word)` key order `keyGe` — descending frequency with ties
broken by *descending* lexicographic word order — and every retained entry
dominates every excluded one under that order. -/
theorem vocab_sorted_desc (lowercase : Bool) (vocSize : ℕ) (unk : Word)
    (corpus : List (List Char)) :
    (makeFreqTable lowercase vocSize unk corpus).drop 1
      = (sortFreqs (countFreqs (tokenizeCorpus lowercase corpus))).take (vocSize - 1)
    ∧ List.Sorted keyGe ((makeFreqTable lowercase vocSize unk corpus).drop 1)
    ∧ ∀ x ∈ (makeFreqTable lowercase vocSize unk corpus).drop 1,
        ∀ y ∈ (sortFreqs (countFreqs (tokenizeCorpus lowercase corpus))).drop
            (vocSize - 1), keyGe x y := by
  have hsorted : List.Sorted keyGe (sortFreqs (countFreqs (tokenizeCorpus lowercase corpus))) :=
    List.sorted_insertionSort keyGe _
  have hdrop : (makeFreqTable lowercase vocSize unk corpus).drop 1
      = (sortFreqs (countFreqs (tokenizeCorpus lowercase corpus))).take (vocSize - 1) := rfl
  refine ⟨hdrop, ?_, ?_⟩
  · rw [hdrop]
    exact List.Pairwise.sublist (List.take_sublist _ _) hsorted
  · rw [hdrop]
    intro x hx y hy
    have hsplit := List.take_append_drop (vocSize - 1)
      (sortFreqs (countFreqs (tokenizeCorpus lowercase corpus)))
    have hpw : List.Pairwise keyGe
        ((sortFreqs (countFreqs (tokenizeCorpus lowercase corpus))).take (vocSize - 1)
          ++ (sortFreqs (countFreqs (tokenizeCorpus lowercase corpus))).drop (vocSize - 1)) := by
      rw [hsplit]; exact hsorted
    exact (List.pairwise_append.mp hpw).2.2 x hx y hy

/-! ## Generator invariants -/

/-- The pairs of all batches already yielded. -/
def donePairs (s : GenState) : List (ℕ × ℕ) :=
  (s.batches.map fun b => b.1.zip b.2).flatten

/-- The pairs accumulated toward the next batch. -/
def pendPairs (s : GenState) : List (ℕ × ℕ) :=
  s.outT.zip s.outC

/-- Invariant carried through one `batches()` pass: the two accumulators
have equal length, every width in the current array lies in `[1, ctx]`,
every pair produced so far satisfies `P`, and every yielded batch is a pair
of equal-length lists. -/
def StOK (WP : ℕ → Prop) (P : ℕ × ℕ → Prop) (s : GenState) : Prop :=
  s.outT.length = s.outC.length
  ∧ (∀ w ∈ s.widths, WP w)
  ∧ (∀ pr ∈ donePairs s, P pr)
  ∧ (∀ pr ∈ pendPairs s, P pr)
  ∧ (∀ b ∈ s.batches, b.1.length = b.2.length)

theorem emitPair_StOK {WP : ℕ → Prop} {P : ℕ × ℕ → Prop} {bs : ℕ} {wdraw : ℕ → List ℕ}
    (hw : ∀ k, ∀ w ∈ wdraw k, WP w) {t c : ℕ} {s : GenState}
    (hs : StOK WP P s) (hP : P (t, c)) : StOK WP P (emitPair bs wdraw t c s) := by
  obtain ⟨hlen, hwid, hdone, hpend, hbat⟩ := hs
  have hzip : (s.outT ++ [t]).zip (s.outC ++ [c]) = s.outT.zip s.outC ++ [(t, c)] :=
    List.zip_append hlen
  unfold emitPair
  by_cases hfull : (s.outT ++ [t]).length = bs
  · rw [if_pos hfull]
    refine ⟨rfl, hw _, ?_, ?_, ?_⟩
    · intro pr hpr
      simp only [donePairs, List.map_append, List.flatten_append, List.map_cons,
        List.map_nil, List.flatten_cons, List.flatten_nil, List.append_nil] at hpr
      rcases List.mem_append.mp hpr with h | h
      · exact hdone pr h
      · rw [hzip] at h
        rcases List.mem_append.mp h with h | h
        · exact hpend pr h
        · rw [List.mem_singleton] at h
          subst h; exact hP
    · intro pr hpr
      simp only [pendPairs, List.zip_nil_left] at hpr
      exact absurd hpr (List.not_mem_nil pr)
    · intro b hb
      rcases List.mem_append.mp hb with h | h
      · exact hbat b h
      · rw [List.mem_singleton] at h
        subst h
        simp [hlen]
  · rw [if_neg hfull]
    refine ⟨by simp [hlen], hwid, hdone, ?_, hbat⟩
    intro pr hpr
    simp only [pendPairs] at hpr
    rw [hzip] at hpr
    rcases List.mem_append.mp hpr with h | h
    · exact hpend pr h
    · rw [List.mem_singleton] at h
      subst h; exact hP

theorem foldl_emit_StOK {WP : ℕ → Prop} {P : ℕ × ℕ → Prop} {bs : ℕ} {wdraw : ℕ → List ℕ}
    (hw : ∀ k, ∀ w ∈ wdraw k, WP w) (ti : ℕ) (ci : ℕ → ℕ) (i : ℕ) :
    ∀ (js : List ℕ) (s : GenState), StOK WP P s →
      (∀ j ∈ js, j ≠ i → P (ti, ci j)) →
      StOK WP P (js.foldl
        (fun st j => if j ≠ i then emitPair bs wdraw ti (ci j) st else st) s) := by
  intro js
  induction js with
  | nil => intro s hs _; exact hs
  | cons j js ih =>
    intro s hs hjs
    simp only [List.foldl_cons]
    by_cases hne : j ≠ i
    · rw [if_pos hne]
      exact ih _ (emitPair_StOK hw hs (hjs j (List.mem_cons_self _ _) hne))
        fun x hx h => hjs x (List.mem_cons_of_mem _ hx) h
    · rw [if_neg hne]
      exact ih _ hs fun x hx h => hjs x (List.mem_cons_of_mem _ hx) h

theorem doPosition_StOK {WP : ℕ → Prop} {P : ℕ × ℕ → Prop} {bs : ℕ} {wdraw : ℕ → List ℕ}
    (hw : ∀ k, ∀ w ∈ wdraw k, WP w) (encoded : List ℕ) (i : ℕ)
    (hP : ∀ j w, WP w → i - w ≤ j →
        j < min (i + w + 1) encoded.length → j ≠ i →
        P (encoded.getD i 0, encoded.getD j 0))
    (s : GenState) (hs : StOK WP P s) :
    StOK WP P (doPosition bs wdraw encoded i s) := by
  unfold doPosition
  by_cases hf : s.failed
  · rw [if_pos hf]; exact hs
  · rw [if_neg hf]
    cases hg : s.widths.get? s.widthIx with
    | none => exact hs
    | some w =>
      have hwp := hs.2.1 w (List.get?_mem hg)
      refine foldl_emit_StOK hw _ _ i _ _ hs ?_
      intro j hj hne
      rw [List.mem_range'] at hj
      obtain ⟨k, hk, rfl⟩ := hj
      exact hP _ w hwp (by omega) (by omega) hne

theorem doLine_StOK {α : Type} [LinearOrder α] {WP : ℕ → Prop} {P : ℕ × ℕ → Prop}
    (lowercase : Bool) {bs : ℕ} (table : List (Word × ℕ × ℤ)) (probs : Word → α)
    {wdraw : ℕ → List ℕ} (hw : ∀ k, ∀ w ∈ wdraw k, WP w)
    (ps : ℕ → α) (line : List Char)
    (hP : ∀ i j w, WP w →
        i < (encodeLine lowercase table probs ps line).length →
        i - w ≤ j →
        j < min (i + w + 1) (encodeLine lowercase table probs ps line).length →
        j ≠ i →
        P ((encodeLine lowercase table probs ps line).getD i 0,
           (encodeLine lowercase table probs ps line).getD j 0))
    (s : GenState) (hs : StOK WP P s) :
    StOK WP P (doLine lowercase bs table probs wdraw ps line s) := by
  unfold doLine
  by_cases hf : s.failed
  · rw [if_pos hf]; exact hs
  · rw [if_neg hf]
    have hfold : ∀ (is : List ℕ) (s' : GenState), StOK WP P s' →
        (∀ i ∈ is, i < (encodeLine lowercase table probs ps line).length) →
        StOK WP P (is.foldl
          (fun st i => doPosition bs wdraw (encodeLine lowercase table probs ps line) i st) s') := by
      intro is
      induction is with
      | nil => intro s' hs' _; exact hs'
      | cons i is ih =>
        intro s' hs' hbound
        simp only [List.foldl_cons]
        refine ih _ (doPosition_StOK hw _ i ?_ s' hs')
          fun x hx => hbound x (List.mem_cons_of_mem _ hx)
        intro j w h1 h3 h4 h5
        exact hP i j w h1 (hbound i (List.mem_cons_self _ _)) h3 h4 h5
    exact hfold _ _ hs fun i hi => (List.mem_range.mp hi)

theorem batches_StOK {α : Type} [LinearOrder α] {WP : ℕ → Prop} {P : ℕ × ℕ → Prop}
    (lowercase : Bool) (bs : ℕ) (table : List (Word × ℕ × ℤ)) (probs : Word → α)
    (wdraw : ℕ → List ℕ) (psO : ℕ → ℕ → α) (corpus : List (List Char))
    (hw : ∀ k, ∀ w ∈ wdraw k, WP w)
    (hP : ∀ li, li < corpus.length → ∀ i j w, WP w →
        i < (encodeLine lowercase table probs (psO li) (corpus.getD li [])).length →
        i - w ≤ j →
        j < min (i + w + 1)
            (encodeLine lowercase table probs (psO li) (corpus.getD li [])).length →
        j ≠ i →
        P ((encodeLine lowercase table probs (psO li) (corpus.getD li [])).getD i 0,
           (encodeLine lowercase table probs (psO li) (corpus.getD li [])).getD j 0)) :
    StOK WP P (batches lowercase bs table probs wdraw psO corpus) := by
  have hs0 : StOK WP P
      { widths := wdraw 0, widthIx := 0, drawCount := 1, outT := [], outC := [],
        batches := [], wordCount := 0, failed := false } := by
    refine ⟨rfl, hw 0, ?_, ?_, ?_⟩ <;> intro x hx <;>
      simp [donePairs, pendPairs] at hx
  have hfold : ∀ (lis : List ℕ) (s' : GenState), StOK WP P s' →
      (∀ li ∈ lis, li < corpus.length) →
      StOK WP P (lis.foldl
        (fun st li => doLine lowercase bs table probs wdraw (psO li) (corpus.getD li []) st) s') := by
    intro lis
    induction lis with
    | nil => intro s' hs' _; exact hs'
    | cons li lis ih =>
      intro s' hs' hbound
      simp only [List.foldl_cons]
      refine ih _ (doLine_StOK lowercase table probs hw (psO li) (corpus.getD li [])
          (hP li (hbound li (List.mem_cons_self _ _))) s' hs')
        fun x hx => hbound x (List.mem_cons_of_mem _ hx)
  unfold batches
  have hmid := hfold (List.range corpus.length) _ hs0 fun li hli => List.mem_range.mp hli
  set smid := (List.range corpus.length).foldl
    (fun st li => doLine lowercase bs table probs wdraw (psO li) (corpus.getD li []) st)
    { widths := wdraw 0, widthIx := 0, drawCount := 1, outT := [], outC := [],
      batches := [], wordCount := 0, failed := false } with hsmid
  obtain ⟨hlen, hwid, hdone, hpend, hbat⟩ := hmid
  by_cases hfin : ¬ smid.failed ∧ smid.outT ≠ []
  · rw [if_pos hfin]
    refine ⟨rfl, hwid, ?_, ?_, ?_⟩
    · intro pr hpr
      simp only [donePairs, List.map_append, List.flatten_append, List.map_cons,
        List.map_nil, List.flatten_cons, List.flatten_nil, List.append_nil] at hpr
      rcases List.mem_append.mp hpr with h | h
      · exact hdone pr h
      · exact hpend pr h
    · intro pr hpr
      simp only [pendPairs, List.zip_nil_left] at hpr
      exact absurd hpr (List.not_mem_nil pr)
    · intro b hb
      rcases List.mem_append.mp hb with h | h
      · exact hbat b h
      · rw [List.mem_singleton] at h
        subst h; exact hlen
  · rw [if_neg hfin]
    exact ⟨hlen, hwid, hdone, hpend, hbat⟩

/-! ## Bounds on the vocabulary encoding -/

theorem dictFoldBound (w : Word) (bnd : ℕ) :
    ∀ (l : List (ℕ × (Word × ℕ × ℤ))) (m : Option ℕ),
      (∀ q ∈ l, q.1 < bnd) → (∀ i, m = some i → i < bnd) →
      ∀ i, l.foldl (fun m q => if q.2.1 = w then some q.1 else m) m = some i → i < bnd := by
  intro l
  induction l with
  | nil => intro m _ hm i hi; exact hm i hi
  | cons q l ih =>
    intro m hq hm i hi
    simp only [List.foldl_cons] at hi
    refine ih _ (fun x hx => hq x (List.mem_cons_of_mem _ hx)) ?_ i hi
    intro j hj
    by_cases hqe : q.2.1 = w
    · rw [if_pos hqe] at hj
      injection hj with h
      exact h ▸ hq q (List.mem_cons_self _ _)
    · rw [if_neg hqe] at hj
      exact hm j hj

theorem vocGet_lt (table : List (Word × ℕ × ℤ)) (hne : table ≠ []) (w : Word) :
    vocGet table w < table.length := by
  unfold vocGet
  cases hfold : table.enum.foldl (fun m q => if q.2.1 = w then some q.1 else m) none with
  | none => simpa using List.length_pos.mpr hne
  | some i =>
    simp only [Option.getD_some]
    refine dictFoldBound w table.length table.enum none ?_ ?_ i hfold
    · intro q hq
      rw [List.enum_eq_zip_range] at hq
      exact List.mem_range.mp (List.of_mem_zip hq).1
    · intro j hj
      exact absurd hj (by simp)

theorem vocGet_absent (table : List (Word × ℕ × ℤ)) (w : Word)
    (h : ∀ e ∈ table, e.1 ≠ w) : vocGet table w = 0 := by
  unfold vocGet
  have hnone : ∀ (l : List (ℕ × (Word × ℕ × ℤ))), (∀ q ∈ l, q.2.1 ≠ w) →
      l.foldl (fun m q => if q.2.1 = w then some q.1 else m) (none : Option ℕ) = none := by
    intro l
    induction l with
    | nil => intro _; rfl
    | cons q l ih =>
      intro hq
      simp only [List.foldl_cons, if_neg (hq q (List.mem_cons_self _ _))]
      exact ih fun x hx => hq x (List.mem_cons_of_mem _ hx)
  rw [hnone table.enum ?_]
  · rfl
  · intro q hq
    rw [List.enum_eq_zip_range] at hq
    exact h q.2 (List.of_mem_zip hq).2

theorem encodeLine_getD_lt {α : Type} [LinearOrder α] (lowercase : Bool)
    (table : List (Word × ℕ × ℤ)) (probs : Word → α) (ps : ℕ → α)
    (line : List Char) (hne : table ≠ []) (i : ℕ)
    (hi : i < (encodeLine lowercase table probs ps line).length) :
    (encodeLine lowercase table probs ps line).getD i 0 < table.length := by
  have hmem : (encodeLine lowercase table probs ps line).getD i 0
      ∈ encodeLine lowercase table probs ps line := by
    rw [List.getD_eq_getElem?_getD, List.getElem?_eq_getElem hi]
    exact List.getElem_mem hi
  obtain ⟨t, _, heq⟩ := List.mem_map.mp hmem
  rw [← heq]
  exact vocGet_lt table hne t

/-! ## The window and index properties of the generator -/

/-- Claim C1 (amended): every pair yielded in a batch originates from two
*distinct positions* `i ≠ j` of the encoded (pruned) line, with
`max(0, i − w) ≤ j ≤ min(len − 1, i + w)` for the width `w` used at target
position `i` (every width drawn lies in `[1, max_context_width]`); the
emitted *vocabulary indices* themselves may coincide when the same word
occurs twice inside a window. -/
theorem batches_pairs_window {α : Type} [LinearOrder α] (lowercase : Bool)
    (bs ctx : ℕ) (table : List (Word × ℕ × ℤ)) (probs : Word → α)
    (wdraw : ℕ → List ℕ) (psO : ℕ → ℕ → α) (corpus : List (List Char))
    (hw : ∀ k, ∀ w ∈ wdraw k, 1 ≤ w ∧ w ≤ ctx) :
    ∀ b ∈ (batches lowercase bs table probs wdraw psO corpus).batches,
      ∀ pr ∈ b.1.zip b.2,
        ∃ li i j w,
          li < corpus.length ∧ 1 ≤ w ∧ w ≤ ctx
          ∧ i < (encodeLine lowercase table probs (psO li) (corpus.getD li [])).length
          ∧ j < (encodeLine lowercase table probs (psO li) (corpus.getD li [])).length
          ∧ j ≠ i ∧ i - w ≤ j ∧ j ≤ i + w
          ∧ pr = ((encodeLine lowercase table probs (psO li) (corpus.getD li [])).getD i 0,
                  (encodeLine lowercase table probs (psO li) (corpus.getD li [])).getD j 0) := by
  have h := @batches_StOK α _ (fun w => 1 ≤ w ∧ w ≤ ctx)
    (fun pr => ∃ li i j w,
      li < corpus.length ∧ 1 ≤ w ∧ w ≤ ctx
      ∧ i < (encodeLine lowercase table probs (psO li) (corpus.getD li [])).length
      ∧ j < (encodeLine lowercase table probs (psO li) (corpus.getD li [])).length
      ∧ j ≠ i ∧ i - w ≤ j ∧ j ≤ i + w
      ∧ pr = ((encodeLine lowercase table probs (psO li) (corpus.getD li [])).getD i 0,
              (encodeLine lowercase table probs (psO li) (corpus.getD li [])).getD j 0))
    lowercase bs table probs wdraw psO corpus hw ?_
  · intro b hb pr hpr
    exact h.2.2.1 pr (List.mem_flatten_of_mem (List.mem_map_of_mem _ hb) hpr)
  · intro li hli i j w hwp hi hj1 hj2 hne
    exact ⟨li, i, j, w, hli, hwp.1, hwp.2, hi, by omega, hne, hj1, by omega, rfl⟩

/-- Closed witness for the amended claim C1: a concrete two-line run over
`ℚ` draws with all widths equal to `1`. -/
theorem batches_pairs_window_witness :
    (∀ _k : ℕ, ∀ w ∈ [1, 1, 1, 1], 1 ≤ w ∧ w ≤ (1 : ℕ))
    ∧ ∀ b ∈ (batches (α := ℚ) false 4 [("u".data, 1, 0), ("a".data, 1, 0)]
          (fun _ => 0) (fun _ => [1, 1, 1, 1]) (fun _ _ => 0) ["a b".data]).batches,
        ∀ pr ∈ b.1.zip b.2,
          ∃ li i j w,
            li < (["a b".data] : List (List Char)).length ∧ 1 ≤ w ∧ w ≤ 1
            ∧ i < (encodeLine (α := ℚ) false [("u".data, 1, 0), ("a".data, 1, 0)]
                (fun _ => 0) (fun _ => 0) ((["a b".data] : List (List Char)).getD li [])).length
            ∧ j < (encodeLine (α := ℚ) false [("u".data, 1, 0), ("a".data, 1, 0)]
                (fun _ => 0) (fun _ => 0) ((["a b".data] : List (List Char)).getD li [])).length
            ∧ j ≠ i ∧ i - w ≤ j ∧ j ≤ i + w
            ∧ pr = ((encodeLine (α := ℚ) false [("u".data, 1, 0), ("a".data, 1, 0)]
                    (fun _ => 0) (fun _ => 0) ((["a b".data] : List (List Char)).getD li [])).getD i 0,
                  (encodeLine (α := ℚ) false [("u".data, 1, 0), ("a".data, 1, 0)]
                    (fun _ => 0) (fun _ => 0) ((["a b".data] : List (List Char)).getD li [])).getD j 0) :=
  ⟨fun _ => by decide,
   batches_pairs_window false 4 1 [("u".data, 1, 0), ("a".data, 1, 0)]
     (fun _ => 0) (fun _ => [1, 1, 1, 1]) (fun _ _ => 0) ["a b".data]
     fun _ => show ∀ w ∈ ([1, 1, 1, 1] : List ℕ), 1 ≤ w ∧ w ≤ 1 by decide⟩

/-- Claim C10: every yielded batch is a pair of equal-length lists, every
element of both lists is a vocabulary index below the table length (a valid
row of both embedding tables), and out-of-vocabulary words are encoded as
the sentinel index `0`. -/
theorem batches_indices_in_range {α : Type} [LinearOrder α] (lowercase : Bool)
    (bs : ℕ) (table : List (Word × ℕ × ℤ)) (probs : Word → α)
    (wdraw : ℕ → List ℕ) (psO : ℕ → ℕ → α) (corpus : List (List Char))
    (hne : table ≠ []) :
    (∀ b ∈ (batches lowercase bs table probs wdraw psO corpus).batches,
        b.1.length = b.2.length
        ∧ (∀ x ∈ b.1, x < table.length) ∧ (∀ x ∈ b.2, x < table.length))
    ∧ (∀ w : Word, (∀ e ∈ table, e.1 ≠ w) → vocGet table w = 0) := by
  have h := @batches_StOK α _ (fun _ => True)
    (fun pr => pr.1 < table.length ∧ pr.2 < table.length)
    lowercase bs table probs wdraw psO corpus (fun _ _ _ => trivial) ?_
  · obtain ⟨_, _, hdone, _, hbat⟩ := h
    refine ⟨?_, fun w hw => vocGet_absent table w hw⟩
    intro b hb
    have hblen := hbat b hb
    have hpair : ∀ pr ∈ b.1.zip b.2, pr.1 < table.length ∧ pr.2 < table.length :=
      fun pr hpr => hdone pr (List.mem_flatten_of_mem (List.mem_map_of_mem _ hb) hpr)
    refine ⟨hblen, ?_, ?_⟩
    · intro x hx
      have : x ∈ (b.1.zip b.2).map Prod.fst := by
        rw [List.map_fst_zip b.1 b.2 (le_of_eq hblen)]
        exact hx
      obtain ⟨pr, hpr, hfst⟩ := List.mem_map.mp this
      exact hfst ▸ (hpair pr hpr).1
    · intro x hx
      have : x ∈ (b.1.zip b.2).map Prod.snd := by
        rw [List.map_snd_zip b.1 b.2 (le_of_eq hblen.symm)]
        exact hx
      obtain ⟨pr, hpr, hsnd⟩ := List.mem_map.mp this
      exact hsnd ▸ (hpair pr hpr).2
  · intro li hli i j w _ hi hj1 hj2 hne'
    constructor
    · exact encodeLine_getD_lt lowercase table probs (psO li) _ hne i hi
    · exact encodeLine_getD_lt lowercase table probs (psO li) _ hne j (by omega)

/-- Closed witness for claim C10 at a concrete two-word table and a run
over `ℚ` draws. -/
theorem batches_indices_in_range_witness :
    ([("u".data, 1, 0), ("a".data, (1 : ℕ), (0 : ℤ))] : List (Word × ℕ × ℤ)) ≠ []
    ∧ ((∀ b ∈ (batches (α := ℚ) false 4 [("u".data, 1, 0), ("a".data, 1, 0)]
          (fun _ => 0) (fun _ => [1, 1, 1, 1]) (fun _ _ => 0) ["a zz".data]).batches,
        b.1.length = b.2.length
        ∧ (∀ x ∈ b.1, x < ([("u".data, 1, 0), ("a".data, 1, 0)] : List (Word × ℕ × ℤ)).length)
        ∧ (∀ x ∈ b.2, x < ([("u".data, 1, 0), ("a".data, 1, 0)] : List (Word × ℕ × ℤ)).length))
      ∧ (∀ w : Word, (∀ e ∈ ([("u".data, 1, 0), ("a".data, 1, 0)] : List (Word × ℕ × ℤ)), e.1 ≠ w) →
          vocGet [("u".data, 1, 0), ("a".data, 1, 0)] w = 0)) :=
  ⟨by decide,
   batches_indices_in_range false 4 [("u".data, 1, 0), ("a".data, 1, 0)]
     (fun _ => 0) (fun _ => [1, 1, 1, 1]) (fun _ _ => 0) ["a zz".data] (by decide)⟩

/-! ## The pruning probabilities -/

theorem dictFold_preserve (upd : (Word × ℕ × ℤ) → ℝ) :
    ∀ (l : List (Word × ℕ × ℤ)) (m : Word → ℝ) (w : Word),
      (∀ q ∈ l, q.1 ≠ w) →
      l.foldl (fun m e => fun x => if x = e.1 then upd e else m x) m w = m w := by
  intro l
  induction l with
  | nil => intro m w _; rfl
  | cons q l ih =>
    intro m w hq
    simp only [List.foldl_cons]
    rw [ih _ w fun x hx => hq x (List.mem_cons_of_mem _ hx)]
    rw [if_neg fun he => hq q (List.mem_cons_self _ _) he.symm]

theorem dictFold_value (upd : (Word × ℕ × ℤ) → ℝ) :
    ∀ (l : List (Word × ℕ × ℤ)) (m : Word → ℝ) (e : Word × ℕ × ℤ),
      e ∈ l → (l.map fun q => q.1).Nodup →
      l.foldl (fun m e => fun x => if x = e.1 then upd e else m x) m e.1 = upd e := by
  intro l
  induction l with
  | nil => intro m e he _; exact absurd he (List.not_mem_nil e)
  | cons q l ih =>
    intro m e he hnd
    simp only [List.map_cons, List.nodup_cons] at hnd
    simp only [List.foldl_cons]
    rcases List.mem_cons.mp he with he | he
    · subst he
      rw [dictFold_preserve upd l _ e.1 ?_]
      · rw [if_pos rfl]
      · intro x hx hxe
        exact hnd.1 (hxe ▸ List.mem_map_of_mem (fun q => q.1) hx)
    · exact ih _ e he hnd.2

/-- Claim C4, counterexample: the source computes `1 - sqrt(t·N/f)` with no
`max(0, ·)` clamp; with threshold `4` on a one-word table (`N = f = 1`) the
stored pruning probability is `-1`, where the claimed formula gives `0`. -/
theorem prune_prob_negative_counterexample :
    pruneProbFun 4 [("a".data, 1, 0)] ("a".data) = -1
    ∧ max 0 (1 - Real.sqrt (4 * ((totalFreq [("a".data, 1, 0)] : ℕ) : ℝ)
        / ((1 : ℕ) : ℝ))) = 0
    ∧ (-1 : ℝ) ≠ 0 := by
  have htot : totalFreq [("a".data, 1, 0)] = 1 := by decide
  have hsqrt : Real.sqrt (4 * ((1 : ℕ) : ℝ) / ((1 : ℕ) : ℝ)) = 2 := by
    rw [show (4 * ((1 : ℕ) : ℝ) / ((1 : ℕ) : ℝ)) = 2 ^ 2 by norm_num]
    exact Real.sqrt_sq (by norm_num)
  refine ⟨?_, ?_, by norm_num⟩
  · show (([("a".data, 1, 0)] : List (Word × ℕ × ℤ)).foldl
      (fun m e => fun w =>
        if w = e.1 then 1 - Real.sqrt (4 * ((totalFreq [("a".data, 1, 0)] : ℕ) : ℝ) / ((e.2.1 : ℕ) : ℝ))
        else m w) (fun _ => 0)) ("a".data) = -1
    rw [List.foldl_cons, List.foldl_nil, if_pos rfl]
    rw [htot]
    rw [hsqrt]
    norm_num
  · rw [htot, hsqrt]
    norm_num

/-- Claim C4 (amended): for every vocabulary entry `(w, f, _)` of a table
with pairwise-distinct words, the stored pruning probability equals
`1 - sqrt(t·N/f)` with *no* clamp to zero (it can be negative), and it is
`≤ 0` for every word whose frequency is at or below `t·N` — such words are
never pruned, since every uniform draw is `≥ 0` and a token survives when
its draw is at least its pruning probability. -/
theorem prune_prob_formula (threshold : ℝ) (table : List (Word × ℕ × ℤ))
    (hnd : (table.map fun e => e.1).Nodup) (e : Word × ℕ × ℤ) (he : e ∈ table) :
    pruneProbFun threshold table e.1
      = 1 - Real.sqrt (threshold * ((totalFreq table : ℕ) : ℝ) / ((e.2.1 : ℕ) : ℝ))
    ∧ (((e.2.1 : ℕ) : ℝ) ≤ threshold * ((totalFreq table : ℕ) : ℝ) → 0 < e.2.1 →
        pruneProbFun threshold table e.1 ≤ 0
        ∧ ∀ p : ℝ, 0 ≤ p → pruneProbFun threshold table e.1 ≤ p) := by
  have heq : pruneProbFun threshold table e.1
      = 1 - Real.sqrt (threshold * ((totalFreq table : ℕ) : ℝ) / ((e.2.1 : ℕ) : ℝ)) :=
    dictFold_value
      (fun e => 1 - Real.sqrt (threshold * ((totalFreq table : ℕ) : ℝ) / ((e.2.1 : ℕ) : ℝ)))
      table (fun _ => 0) e he hnd
  refine ⟨heq, fun hfle hfpos => ?_⟩
  have hf : (0 : ℝ) < ((e.2.1 : ℕ) : ℝ) := by exact_mod_cast hfpos
  have hdiv : (1 : ℝ) ≤ threshold * ((totalFreq table : ℕ) : ℝ) / ((e.2.1 : ℕ) : ℝ) :=
    (one_le_div hf).mpr hfle
  have hsq : (1 : ℝ) ≤ Real.sqrt (threshold * ((totalFreq table : ℕ) : ℝ) / ((e.2.1 : ℕ) : ℝ)) := by
    calc (1 : ℝ) = Real.sqrt 1 := Real.sqrt_one.symm
    _ ≤ _ := Real.sqrt_le_sqrt hdiv
  have hle : pruneProbFun threshold table e.1 ≤ 0 := by
    rw [heq]; linarith
  exact ⟨hle, fun p hp => le_trans hle hp⟩

/-- Closed witness for the amended claim C4 at the one-word table with
threshold `1`:  `f = 1 = t·N`, so the probability is exactly `0`. -/
theorem prune_prob_formula_witness :
    (([("a".data, (1 : ℕ), (0 : ℤ))].map fun e => e.1).Nodup
      ∧ ("a".data, (1 : ℕ), (0 : ℤ)) ∈ [("a".data, (1 : ℕ), (0 : ℤ))])
    ∧ (pruneProbFun 1 [("a".data, 1, 0)] ("a".data)
        = 1 - Real.sqrt (1 * ((totalFreq [("a".data, 1, 0)] : ℕ) : ℝ) / ((1 : ℕ) : ℝ))
      ∧ (((1 : ℕ) : ℝ) ≤ 1 * ((totalFreq [("a".data, 1, 0)] : ℕ) : ℝ) → 0 < (1 : ℕ) →
          pruneProbFun 1 [("a".data, 1, 0)] ("a".data) ≤ 0
          ∧ ∀ p : ℝ, 0 ≤ p → pruneProbFun 1 [("a".data, 1, 0)] ("a".data) ≤ p)) :=
  ⟨⟨by decide, by decide⟩,
   prune_prob_formula 1 [("a".data, 1, 0)] (by decide) ("a".data, 1, 0) (by decide)⟩

/-! ## The negative-sampling slot counts -/

theorem pyRound_abs_le (x : ℝ) : |((pyRound x : ℤ) : ℝ) - x| ≤ 1 / 2 := by
  unfold pyRound
  by_cases hh : x - ⌊x⌋ = 1 / 2
  · rw [if_pos hh]
    by_cases hev : 2 ∣ ⌊x⌋
    · rw [if_pos hev]
      rw [show ((⌊x⌋ : ℤ) : ℝ) - x = -(1 / 2) by linarith]
      rw [abs_neg, abs_of_pos (by norm_num)]
    · rw [if_neg hev]
      rw [show (((⌊x⌋ + 1 : ℤ)) : ℝ) - x = 1 / 2 by push_cast; linarith]
      rw [abs_of_pos (by norm_num)]
  · rw [if_neg hh, abs_sub_comm]
    exact abs_sub_round x

theorem pyRound_nonneg (x : ℝ) (hx : 0 ≤ x) : 0 ≤ pyRound x := by
  unfold pyRound
  have hfl : (0 : ℤ) ≤ ⌊x⌋ := Int.floor_nonneg.mpr hx
  by_cases hh : x - ⌊x⌋ = 1 / 2
  · rw [if_pos hh]
    by_cases hev : 2 ∣ ⌊x⌋
    · rw [if_pos hev]; exact hfl
    · rw [if_neg hev]; omega
  · rw [if_neg hh, round_eq]
    exact Int.floor_nonneg.mpr (by linarith)

theorem sum_pyRound_close : ∀ (xs : List ℝ),
    |((xs.map fun x => ((pyRound x : ℤ) : ℝ)).sum) - xs.sum|
      ≤ (xs.length : ℝ) * (1 / 2) := by
  intro xs
  induction xs with
  | nil => simp
  | cons x xs ih =>
    simp only [List.map_cons, List.sum_cons, List.length_cons]
    have h1 := pyRound_abs_le x
    calc |((pyRound x : ℤ) : ℝ) + (xs.map fun x => ((pyRound x : ℤ) : ℝ)).sum - (x + xs.sum)|
        = |(((pyRound x : ℤ) : ℝ) - x)
            + ((xs.map fun x => ((pyRound x : ℤ) : ℝ)).sum - xs.sum)| := by ring_nf
      _ ≤ |((pyRound x : ℤ) : ℝ) - x|
            + |(xs.map fun x => ((pyRound x : ℤ) : ℝ)).sum - xs.sum| := abs_add _ _
      _ ≤ 1 / 2 + (xs.length : ℝ) * (1 / 2) := add_le_add h1 ih
      _ = (((xs.length + 1 : ℕ)) : ℝ) * (1 / 2) := by push_cast; ring

theorem list_sum_pos_of_mem {l : List ℝ} (h0 : ∀ x ∈ l, 0 ≤ x) {a : ℝ}
    (ha : a ∈ l) (hap : 0 < a) : 0 < l.sum := by
  induction l with
  | nil => exact absurd ha (List.not_mem_nil a)
  | cons b l ih =>
    rw [List.sum_cons]
    rcases List.mem_cons.mp ha with hab | ha'
    · have : (0 : ℝ) ≤ l.sum :=
        List.sum_nonneg fun x hx => h0 x (List.mem_cons_of_mem _ hx)
      linarith [hab ▸ hap]
    · have hb : (0 : ℝ) ≤ b := h0 b (List.mem_cons_self _ _)
      have := ih (fun x hx => h0 x (List.mem_cons_of_mem _ hx)) ha'
      linarith

theorem pyRound_intCast (n : ℤ) : pyRound ((n : ℤ) : ℝ) = n := by
  unfold pyRound
  rw [Int.floor_intCast]
  rw [if_neg (by norm_num : ¬ (((n : ℤ) : ℝ) - ((n : ℤ) : ℝ) = 1 / 2))]
  exact round_intCast n

theorem nsDictFold_preserve (upd : (Word × ℕ) → ℝ) :
    ∀ (l : List (Word × ℕ)) (m : Word → ℝ) (w : Word),
      (∀ q ∈ l, q.1 ≠ w) →
      l.foldl (fun m e => fun x => if x = e.1 then upd e else m x) m w = m w := by
  intro l
  induction l with
  | nil => intro m w _; rfl
  | cons q l ih =>
    intro m w hq
    simp only [List.foldl_cons]
    rw [ih _ w fun x hx => hq x (List.mem_cons_of_mem _ hx)]
    rw [if_neg fun he => hq q (List.mem_cons_self _ _) he.symm]

theorem nsDictFold_value (upd : (Word × ℕ) → ℝ) :
    ∀ (l : List (Word × ℕ)) (m : Word → ℝ) (e : Word × ℕ),
      e ∈ l → (l.map fun q => q.1).Nodup →
      l.foldl (fun m e => fun x => if x = e.1 then upd e else m x) m e.1 = upd e := by
  intro l
  induction l with
  | nil => intro m e he _; exact absurd he (List.not_mem_nil e)
  | cons q l ih =>
    intro m e he hnd
    simp only [List.map_cons, List.nodup_cons] at hnd
    simp only [List.foldl_cons]
    rcases List.mem_cons.mp he with he | he
    · subst he
      rw [nsDictFold_preserve upd l _ e.1 ?_]
      · rw [if_pos rfl]
      · intro x hx hxe
        exact hnd.1 (hxe ▸ List.mem_map_of_mem (fun q => q.1) hx)
    · exact ih _ e he hnd.2

/-- Claim C7, counterexample: on a table with a repeated word — reachable
when the unknown-token string also occurs as a retained corpus word, since
the sentinel is prepended without deduplication — the dict lookup
`ns_table[w]` gives every duplicate the *last* duplicate's
`freq ** ns_exp`.  On `[(u, 98), (u, 1), (b, 1)]` with exponent `1` and
table size `100` the code assigns slots `[1, 1, 1]`, while the claimed
formula for the first entry is `round(100·98/100) = 98`, and the slot
total `3` misses the table size `100` by far more than `±1` per entry. -/
theorem ns_slots_duplicate_counterexample :
    ((nsSlots 100 1 [("u".data, 98), ("u".data, 1), ("b".data, 1)]).map fun e => e.2.2)
      = [1, 1, 1]
    ∧ pyRound (((100 : ℕ) : ℝ) * ((98 : ℕ) : ℝ) ^ (1 : ℝ)
        / (([("u".data, 98), ("u".data, 1), ("b".data, 1)] : List (Word × ℕ)).map
            fun p => (p.2 : ℝ) ^ (1 : ℝ)).sum) = 98
    ∧ (1 : ℤ) ≠ 98
    ∧ ¬ (|(([1, 1, 1] : List ℤ)).sum - ((100 : ℕ) : ℤ)|
        ≤ ((([("u".data, 98), ("u".data, 1), ("b".data, 1)] : List (Word × ℕ)).length : ℤ))) := by
  have hZ100 : (([("u".data, 98), ("u".data, 1), ("b".data, 1)] : List (Word × ℕ)).map
      fun p => (p.2 : ℝ) ^ (1 : ℝ)).sum = (100 : ℝ) := by
    show ((98 : ℕ) : ℝ) ^ (1 : ℝ) + (((1 : ℕ) : ℝ) ^ (1 : ℝ) + (((1 : ℕ) : ℝ) ^ (1 : ℝ) + 0))
        = (100 : ℝ)
    simp only [Real.rpow_one]
    push_cast
    norm_num
  have hX : pyRound (((1 : ℕ) : ℝ) ^ (1 : ℝ) * (((100 : ℕ) : ℝ)
      / (([("u".data, 98), ("u".data, 1), ("b".data, 1)] : List (Word × ℕ)).map
          fun p => (p.2 : ℝ) ^ (1 : ℝ)).sum)) = 1 := by
    rw [show ((1 : ℕ) : ℝ) ^ (1 : ℝ) * (((100 : ℕ) : ℝ)
        / (([("u".data, 98), ("u".data, 1), ("b".data, 1)] : List (Word × ℕ)).map
            fun p => (p.2 : ℝ) ^ (1 : ℝ)).sum) = ((1 : ℤ) : ℝ) from by
      rw [hZ100]
      simp only [Real.rpow_one]
      push_cast
      norm_num]
    exact pyRound_intCast 1
  refine ⟨?_, ?_, by decide, by decide⟩
  · have hlist : ((nsSlots 100 1 [("u".data, 98), ("u".data, 1), ("b".data, 1)]).map
        fun e => e.2.2)
        = [pyRound (((1 : ℕ) : ℝ) ^ (1 : ℝ) * (((100 : ℕ) : ℝ)
            / (([("u".data, 98), ("u".data, 1), ("b".data, 1)] : List (Word × ℕ)).map
                fun p => (p.2 : ℝ) ^ (1 : ℝ)).sum)),
           pyRound (((1 : ℕ) : ℝ) ^ (1 : ℝ) * (((100 : ℕ) : ℝ)
            / (([("u".data, 98), ("u".data, 1), ("b".data, 1)] : List (Word × ℕ)).map
                fun p => (p.2 : ℝ) ^ (1 : ℝ)).sum)),
           pyRound (((1 : ℕ) : ℝ) ^ (1 : ℝ) * (((100 : ℕ) : ℝ)
            / (([("u".data, 98), ("u".data, 1), ("b".data, 1)] : List (Word × ℕ)).map
                fun p => (p.2 : ℝ) ^ (1 : ℝ)).sum))] := rfl
    rw [hlist, hX]
  · rw [show ((100 : ℕ) : ℝ) * ((98 : ℕ) : ℝ) ^ (1 : ℝ)
        / (([("u".data, 98), ("u".data, 1), ("b".data, 1)] : List (Word × ℕ)).map
            fun p => (p.2 : ℝ) ^ (1 : ℝ)).sum = ((98 : ℤ) : ℝ) from by
      rw [hZ100]
      simp only [Real.rpow_one]
      push_cast
      norm_num]
    exact pyRound_intCast 98

/-- Claim C7 (amended): for every frequency table whose words are pairwise
distinct — which covers every table in which the unknown-token string does
not also survive as a corpus word — each entry receives the slot count
`round(table_size · f^α / Σ f^α)` (Python's round-half-to-even), every
slot count is a non-negative integer, and the slot total differs from
`table_size` by at most `1` per entry (indeed by at most `1/2` per entry
in exact arithmetic).  On a table with a repeated word, the dict lookup
`ns_table[w]` replaces each duplicate's own `f^α` by the last duplicate's
and both guarantees fail — see the counterexample. -/
theorem ns_slots_properties (nsTableSize : ℕ) (nsExp : ℝ) (fs : List (Word × ℕ))
    (hpos : ∃ p ∈ fs, 0 < p.2) (hnd : (fs.map fun p => p.1).Nodup) :
    (∀ e ∈ nsSlots nsTableSize nsExp fs,
        e.2.2 = pyRound ((nsTableSize : ℝ) * ((e.2.1 : ℕ) : ℝ) ^ nsExp
          / (fs.map fun p => ((p.2 : ℕ) : ℝ) ^ nsExp).sum)
        ∧ 0 ≤ e.2.2)
    ∧ |((nsSlots nsTableSize nsExp fs).map fun e => e.2.2).sum - (nsTableSize : ℤ)|
        ≤ (fs.length : ℤ) := by
  set Z : ℝ := (fs.map fun p => ((p.2 : ℕ) : ℝ) ^ nsExp).sum with hZ
  have hZpos : 0 < Z := by
    obtain ⟨p, hp, hppos⟩ := hpos
    refine list_sum_pos_of_mem ?_ (List.mem_map_of_mem _ hp)
      (Real.rpow_pos_of_pos (by exact_mod_cast hppos) nsExp)
    intro x hx
    obtain ⟨q, _, hq⟩ := List.mem_map.mp hx
    exact hq ▸ Real.rpow_nonneg (Nat.cast_nonneg q.2) nsExp
  constructor
  · intro e he
    obtain ⟨p, hp, hpe⟩ := List.mem_map.mp he
    subst hpe
    have hd : nsDict nsExp fs p.1 = ((p.2 : ℕ) : ℝ) ^ nsExp := by
      unfold nsDict
      exact nsDictFold_value (fun q => ((q.2 : ℕ) : ℝ) ^ nsExp) fs (fun _ => 0) p hp hnd
    constructor
    · show pyRound (nsDict nsExp fs p.1 * ((nsTableSize : ℝ) / Z))
        = pyRound ((nsTableSize : ℝ) * ((p.2 : ℕ) : ℝ) ^ nsExp / Z)
      rw [hd]
      congr 1
      ring
    · show 0 ≤ pyRound (nsDict nsExp fs p.1 * ((nsTableSize : ℝ) / Z))
      rw [hd]
      refine pyRound_nonneg _ (mul_nonneg (Real.rpow_nonneg (Nat.cast_nonneg p.2) nsExp) ?_)
      exact div_nonneg (Nat.cast_nonneg nsTableSize) (le_of_lt hZpos)
  · have hslots : ((nsSlots nsTableSize nsExp fs).map fun e => e.2.2)
        = fs.map fun p => pyRound (((p.2 : ℕ) : ℝ) ^ nsExp * ((nsTableSize : ℝ) / Z)) := by
      unfold nsSlots
      rw [List.map_map]
      refine List.map_congr_left ?_
      intro p hp
      show pyRound (nsDict nsExp fs p.1 * ((nsTableSize : ℝ) / Z))
          = pyRound (((p.2 : ℕ) : ℝ) ^ nsExp * ((nsTableSize : ℝ) / Z))
      rw [show nsDict nsExp fs p.1 = ((p.2 : ℕ) : ℝ) ^ nsExp from by
        unfold nsDict
        exact nsDictFold_value (fun q => ((q.2 : ℕ) : ℝ) ^ nsExp) fs (fun _ => 0) p hp hnd]
    have hxsum : ((fs.map fun p => ((p.2 : ℕ) : ℝ) ^ nsExp * ((nsTableSize : ℝ) / Z)).sum)
        = (nsTableSize : ℝ) := by
      rw [List.sum_map_mul_right, ← hZ]
      field_simp
    have hclose := sum_pyRound_close
      (fs.map fun p => ((p.2 : ℕ) : ℝ) ^ nsExp * ((nsTableSize : ℝ) / Z))
    rw [hxsum, List.length_map] at hclose
    have hcast : (((fs.map fun p =>
          pyRound (((p.2 : ℕ) : ℝ) ^ nsExp * ((nsTableSize : ℝ) / Z))).sum : ℤ) : ℝ)
        = ((fs.map fun p => ((p.2 : ℕ) : ℝ) ^ nsExp * ((nsTableSize : ℝ) / Z)).map
            fun x => ((pyRound x : ℤ) : ℝ)).sum := by
      rw [Int.cast_list_sum, List.map_map, List.map_map]
      rfl
    have hreal : |((((nsSlots nsTableSize nsExp fs).map fun e => e.2.2).sum : ℤ) : ℝ)
        - ((nsTableSize : ℤ) : ℝ)| ≤ ((fs.length : ℤ) : ℝ) := by
      rw [hslots, hcast]
      push_cast
      calc _ ≤ (fs.length : ℝ) * (1 / 2) := hclose
      _ ≤ (fs.length : ℝ) := by
        have : (0 : ℝ) ≤ (fs.length : ℝ) := Nat.cast_nonneg _
        linarith
    rw [← Int.cast_sub, ← Int.cast_abs] at hreal
    exact_mod_cast hreal

/-- Closed witness for the amended claim C7: the one-entry frequency table
`[(a, 1)]` with exponent `1` and table size `2`. -/
theorem ns_slots_properties_witness :
    ((∃ p ∈ ([("a".data, 1)] : List (Word × ℕ)), 0 < p.2)
      ∧ (([("a".data, 1)] : List (Word × ℕ)).map fun p => p.1).Nodup)
    ∧ ((∀ e ∈ nsSlots 2 1 [("a".data, 1)],
        e.2.2 = pyRound (((2 : ℕ) : ℝ) * ((e.2.1 : ℕ) : ℝ) ^ (1 : ℝ)
          / (([("a".data, 1)] : List (Word × ℕ)).map fun p => ((p.2 : ℕ) : ℝ) ^ (1 : ℝ)).sum)
        ∧ 0 ≤ e.2.2)
      ∧ |((nsSlots 2 1 [("a".data, 1)]).map fun e => e.2.2).sum - ((2 : ℕ) : ℤ)|
          ≤ ((([("a".data, 1)] : List (Word × ℕ)).length : ℤ))) :=
  ⟨⟨by decide, by decide⟩, ns_slots_properties 2 1 [("a".data, 1)] (by decide) (by decide)⟩

/-! ## Nearest neighbours -/

instance (s : ℕ → ℝ) : IsTotal ℕ (rankRel s) where
  total i j := by
    rcases lt_trichotomy (s i) (s j) with h | h | h
    · exact Or.inr (Or.inl h)
    · rcases Nat.le_total i j with hij | hij
      · exact Or.inl (Or.inr ⟨h, hij⟩)
      · exact Or.inr (Or.inr ⟨h.symm, hij⟩)
    · exact Or.inl (Or.inl h)

instance (s : ℕ → ℝ) : IsTrans ℕ (rankRel s) where
  trans i j k hij hjk := by
    rcases hij with h1 | ⟨h1, h2⟩ <;> rcases hjk with h3 | ⟨h3, h4⟩
    · exact Or.inl (by linarith)
    · exact Or.inl (by linarith)
    · exact Or.inl (by linarith)
    · exact Or.inr ⟨by linarith, h2.trans h4⟩

theorem dictIndex_some (ws : List Word) (w : Word) (q : ℕ)
    (h : dictIndex ws w = some q) : q < ws.length ∧ ws.getD q [] = w := by
  unfold dictIndex at h
  suffices hsuf : ∀ (l : List (ℕ × Word)) (m : Option ℕ),
      (∀ x ∈ l, x.1 < ws.length ∧ ws.getD x.1 [] = x.2) →
      (∀ i, m = some i → i < ws.length ∧ ws.getD i [] = w) →
      ∀ i, l.foldl (fun m q => if q.2 = w then some q.1 else m) m = some i →
        i < ws.length ∧ ws.getD i [] = w by
    refine hsuf ws.enum none ?_ (by simp) q h
    intro x hx
    rw [List.mem_enum_iff_getElem?] at hx
    have hlt : x.1 < ws.length := by
      by_contra hge
      rw [List.getElem?_eq_none (by omega)] at hx
      exact Option.noConfusion hx
    refine ⟨hlt, ?_⟩
    rw [List.getD_eq_getElem?_getD, hx]
    rfl
  intro l
  induction l with
  | nil => intro m _ hm i hi; exact hm i hi
  | cons x l ih =>
    intro m hl hm i hi
    simp only [List.foldl_cons] at hi
    refine ih _ (fun y hy => hl y (List.mem_cons_of_mem _ hy)) ?_ i hi
    intro j hj
    by_cases hx : x.2 = w
    · rw [if_pos hx] at hj
      injection hj with hj
      obtain ⟨h1, h2⟩ := hl x (List.mem_cons_self _ _)
      exact hj ▸ ⟨h1, hx ▸ h2⟩
    · rw [if_neg hx] at hj
      exact hm j hj

/-- The `topk`-style ranking puts the strict maximiser `q` first; the rest
of the ranking is sorted, has length `n - 1`, and consists of indices
below `n` other than `q`. -/
theorem rank_drop_top (s : ℕ → ℝ) (n q : ℕ) (hqlt : q < n)
    (hstrict : ∀ i, i < n → i ≠ q → s i < s q) :
    ∃ rest, List.insertionSort (rankRel s) (List.range n) = q :: rest
      ∧ rest.length = n - 1
      ∧ List.Sorted (rankRel s) rest
      ∧ ∀ x ∈ rest, x < n ∧ x ≠ q := by
  have hperm : List.Perm (List.insertionSort (rankRel s) (List.range n)) (List.range n) :=
    List.perm_insertionSort _ _
  have hlenr : (List.insertionSort (rankRel s) (List.range n)).length = n := by
    rw [hperm.length_eq, List.length_range]
  have hsorted : List.Sorted (rankRel s) (List.insertionSort (rankRel s) (List.range n)) :=
    List.sorted_insertionSort _ _
  have hndr : (List.insertionSort (rankRel s) (List.range n)).Nodup :=
    hperm.nodup_iff.mpr (List.nodup_range n)
  have hmemr : ∀ x, x ∈ List.insertionSort (rankRel s) (List.range n) ↔ x < n := by
    intro x; rw [hperm.mem_iff, List.mem_range]
  cases hr : List.insertionSort (rankRel s) (List.range n) with
  | nil => rw [hr] at hlenr; simp at hlenr; omega
  | cons h rest =>
    have hhq : h = q := by
      by_contra hne
      have hqmem : q ∈ List.insertionSort (rankRel s) (List.range n) := (hmemr q).mpr hqlt
      rw [hr] at hqmem
      rcases List.mem_cons.mp hqmem with h1 | h1
      · exact hne h1.symm
      · have hrel : rankRel s h q := by
          rw [hr] at hsorted
          exact List.rel_of_sorted_cons hsorted q h1
        have hhlt : h < n := (hmemr h).mp (hr ▸ List.mem_cons_self _ _)
        have hlt : s h < s q := hstrict h hhlt hne
        rcases hrel with h2 | ⟨h2, _⟩
        · exact absurd h2 (by linarith)
        · exact absurd h2 (by linarith)
    subst hhq
    refine ⟨rest, rfl, ?_, ?_, ?_⟩
    · rw [hr] at hlenr; simp at hlenr; omega
    · rw [hr] at hsorted
      exact hsorted.of_cons
    · intro x hx
      constructor
      · exact (hmemr x).mp (hr ▸ List.mem_cons_of_mem _ hx)
      · intro hxq
        rw [hr] at hndr
        exact (List.nodup_cons.mp hndr).1 (hxq ▸ hx)

/-- Claim C6, counterexample: with identical embeddings for both words, the
query `b` ties with `a` at similarity 1; `topk` ranks the smaller index
first, and the code drops only that top entry (`values[:, 1:]`), so the
returned neighbour list of the query `b` is `[b]` — the query itself
appears in its own list. -/
theorem nn_query_in_own_list_counterexample :
    (nearestNeighborsOne ["a".data, "b".data] [[1], [1]] 1 ("b".data)).map
        (fun l => l.map Prod.fst)
      = some ["b".data] := by
  have hq : dictIndex ["a".data, "b".data] ("b".data) = some 1 := by decide
  have h01 : rankRel (fun i => cosSim (([[1], [1]] : List (List ℝ)).getD 1 [])
      (([[1], [1]] : List (List ℝ)).getD i [])) 0 1 :=
    Or.inr ⟨rfl, by omega⟩
  unfold nearestNeighborsOne
  rw [hq]
  show (some ((((List.insertionSort
      (rankRel fun i => cosSim (([[1], [1]] : List (List ℝ)).getD 1 [])
        (([[1], [1]] : List (List ℝ)).getD i []))
      (List.range ([[1], [1]] : List (List ℝ)).length)).take 2).drop 1).map
        fun i => (((["a".data, "b".data] : List Word)).getD i [],
          cosSim (([[1], [1]] : List (List ℝ)).getD 1 [])
            (([[1], [1]] : List (List ℝ)).getD i [])))).map (fun l => l.map Prod.fst)
      = some ["b".data]
  rw [show List.range ([[1], [1]] : List (List ℝ)).length = [0, 1] from rfl]
  simp only [List.insertionSort, List.orderedInsert]
  rw [if_pos h01]
  simp

/-- Claim C6 (amended): whenever the query word is in the vocabulary, the
vocabulary words are distinct, `k + 1` does not exceed the number of
embedding rows, and the query's self-similarity *strictly* exceeds every
other row's similarity, `nearest_neighbors` returns `k` `(word,
similarity)` pairs sorted descending by similarity and the query does not
appear in its own list.  (Only the single top-ranked entry is dropped, so
under a similarity tie at the top the query can appear — see the
counterexample.) -/
theorem nearest_neighbors_strict_top (vocab : List Word) (W : List (List ℝ))
    (k : ℕ) (w : Word) (q : ℕ) (hq : dictIndex vocab w = some q)
    (hk0 : k ≠ 0)
    (hlen : vocab.length = W.length) (hnd : vocab.Nodup) (hk : k + 1 ≤ W.length)
    (hstrict : ∀ i, i < W.length → i ≠ q →
        cosSim (W.getD q []) (W.getD i []) < cosSim (W.getD q []) (W.getD q [])) :
    ∃ res, nearestNeighborsOne vocab W k w = some res
      ∧ res.length = k
      ∧ List.Pairwise (fun p p' : Word × ℝ => p'.2 ≤ p.2) res
      ∧ ∀ p ∈ res, p.1 ≠ w := by
  obtain ⟨hqlt, hqget⟩ := dictIndex_some vocab w q hq
  obtain ⟨rest, hrest, hrlen, hrsorted, hrmem⟩ :=
    rank_drop_top (fun i => cosSim (W.getD q []) (W.getD i [])) W.length q
      (hlen ▸ hqlt) hstrict
  refine ⟨(rest.take k).map fun i => (vocab.getD i [],
      cosSim (W.getD q []) (W.getD i [])), ?_, ?_, ?_, ?_⟩
  · unfold nearestNeighborsOne
    rw [hq]
    show (if k = 0 then none else some ((((List.insertionSort
        (rankRel fun i => cosSim (W.getD q []) (W.getD i []))
        (List.range W.length)).take (k + 1)).drop 1).map
          fun i => (vocab.getD i [], cosSim (W.getD q []) (W.getD i [])))) = _
    rw [if_neg hk0]
    show some ((((List.insertionSort
        (rankRel fun i => cosSim (W.getD q []) (W.getD i []))
        (List.range W.length)).take (k + 1)).drop 1).map
          fun i => (vocab.getD i [], cosSim (W.getD q []) (W.getD i []))) = _
    rw [hrest]
    rw [List.take_succ_cons, List.drop_succ_cons, List.drop_zero]
  · rw [List.length_map, List.length_take]
    omega
  · refine List.Pairwise.map _ ?_ (hrsorted.take (n := k))
    intro a b hab
    rcases hab with h1 | ⟨h1, _⟩
    · exact le_of_lt h1
    · exact le_of_eq h1.symm
  · intro p hp
    obtain ⟨x, hx, rfl⟩ := List.mem_map.mp hp
    obtain ⟨hxlt, hxq⟩ := hrmem x (List.mem_of_mem_take hx)
    intro hcontra
    have hxv : x < vocab.length := hlen ▸ hxlt
    have hqv : q < vocab.length := hqlt
    have hcontra2 : vocab.getD x [] = w := hcontra
    have hgg : vocab.getD x [] = vocab.getD q [] := by
      rw [hcontra2, hqget]
    rw [List.getD_eq_getElem?_getD, List.getD_eq_getElem?_getD,
      List.getElem?_eq_getElem hxv, List.getElem?_eq_getElem hqv] at hgg
    simp only [Option.getD_some] at hgg
    exact hxq ((hnd.getElem_inj_iff).mp hgg)

theorem dotL_single (a b : ℝ) : dotL [a] [b] = a * b := by
  unfold dotL
  simp

theorem norm2_single_one : norm2 [(1 : ℝ)] = 1 := by
  unfold norm2
  rw [dotL_single, one_mul]
  exact Real.sqrt_one

theorem cosSim_one_one : cosSim [(1 : ℝ)] [1] = 1 := by
  unfold cosSim torchCosEps
  rw [dotL_single, norm2_single_one]
  rw [max_eq_left (by norm_num : (1 : ℝ) / 100000000 ≤ 1 * 1)]
  norm_num

theorem cosSim_one_zero : cosSim [(1 : ℝ)] [0] = 0 := by
  unfold cosSim
  rw [dotL_single]
  norm_num

theorem nn_witness_strict : ∀ i, i < ([[(1 : ℝ)], [0]] : List (List ℝ)).length → i ≠ 0 →
    cosSim (([[(1 : ℝ)], [0]] : List (List ℝ)).getD 0 [])
        (([[(1 : ℝ)], [0]] : List (List ℝ)).getD i [])
      < cosSim (([[(1 : ℝ)], [0]] : List (List ℝ)).getD 0 [])
          (([[(1 : ℝ)], [0]] : List (List ℝ)).getD 0 []) := by
  intro i hi hne
  simp only [List.length_cons, List.length_nil] at hi
  interval_cases i
  · exact absurd rfl hne
  · show cosSim [(1 : ℝ)] [0] < cosSim [(1 : ℝ)] [1]
    rw [cosSim_one_zero, cosSim_one_one]
    norm_num

/-- Closed witness for the amended claim C6: two words with orthogonal
one-dimensional embeddings, query `a`, `k = 1`. -/
theorem nearest_neighbors_strict_top_witness :
    (dictIndex ["a".data, "b".data] ("a".data) = some 0
      ∧ (1 : ℕ) ≠ 0
      ∧ (["a".data, "b".data] : List Word).length = ([[(1 : ℝ)], [0]] : List (List ℝ)).length
      ∧ (["a".data, "b".data] : List Word).Nodup
      ∧ 1 + 1 ≤ ([[(1 : ℝ)], [0]] : List (List ℝ)).length)
    ∧ ∃ res, nearestNeighborsOne ["a".data, "b".data] [[1], [0]] 1 ("a".data) = some res
        ∧ res.length = 1
        ∧ List.Pairwise (fun p p' : Word × ℝ => p'.2 ≤ p.2) res
        ∧ ∀ p ∈ res, p.1 ≠ "a".data :=
  ⟨⟨by decide, by decide, by decide, by decide, by decide⟩,
   nearest_neighbors_strict_top ["a".data, "b".data] [[1], [0]] 1 ("a".data) 0
     (by decide) (by decide) (by decide) (by decide) (by decide) nn_witness_strict⟩

end SGNS
